import Mathlib

/-!
Verification of the order-book intelligence engine (mcp-server-ccxt, orderbook
assets).  The Python sources under `assets/orderbook/src` are embedded
shallowly: floats become `ℚ`, update ids become `ℤ`, `time.time()` becomes an
explicit `now : ℚ` argument, and the `dict` price maps become association
lists.  Python `sorted` is modelled by `List.insertionSort`, which agrees with
it on every list whose sort keys are pairwise distinct (the only case that
arises, since the inputs are dict values keyed by price).
-/

/-- One level of the L2 book (`PriceLevel` in orderbook.py, lines 20-27). -/
structure PriceLevel where
  price : ℚ
  quantity : ℚ
deriving DecidableEq

/-- `PriceLevel.notional` (orderbook.py line 26). -/
def PriceLevel.notional (l : PriceLevel) : ℚ := l.price * l.quantity

/-- The `OrderBook` dataclass (orderbook.py lines 30-56). -/
structure OrderBook where
  symbol : String
  bids : List PriceLevel := []
  asks : List PriceLevel := []
  last_update_id : ℤ := 0
  timestamp : ℚ := 0
deriving DecidableEq

/-- `OrderBook.best_bid` (line 39): the first bid price, or `None`. -/
def OrderBook.best_bid (ob : OrderBook) : Option ℚ :=
  ob.bids.head?.map PriceLevel.price

/-- `OrderBook.best_ask` (line 43). -/
def OrderBook.best_ask (ob : OrderBook) : Option ℚ :=
  ob.asks.head?.map PriceLevel.price

/-- `OrderBook.mid_price` (lines 46-50).  The Python guard
`if self.best_bid and self.best_ask` is truthiness: `None` and `0.0` both
fail it, so the embedding tests for `some` of a nonzero value. -/
def OrderBook.mid_price (ob : OrderBook) : Option ℚ :=
  match ob.best_bid, ob.best_ask with
  | some bb, some ba => if bb ≠ 0 ∧ ba ≠ 0 then some ((bb + ba) / 2) else none
  | _, _ => none

/-- The mutable fields of `OrderBookManager` (orderbook.py lines 59-66):
the wrapped book, `_last_u` and `_initialized`. -/
structure OrderBookManager where
  symbol : String
  depth : ℕ
  orderbook : OrderBook
  last_u : ℤ
  initialized : Bool
deriving DecidableEq

/-- A depth event as consumed by `process_update` (lines 85-97): `U` and `pu`
may be absent from the dict, `u` is always read with `event["u"]`, and the
`b` / `a` entries are price-quantity pairs (already converted from strings). -/
structure DepthEvent where
  U : Option ℤ
  u : ℤ
  pu : Option ℤ
  b : List (ℚ × ℚ)
  a : List (ℚ × ℚ)
deriving DecidableEq

/-- The dict store `price_map[price] = level` used by `_apply_update`
(line 122): replace in place when the price is present, append otherwise. -/
def mapInsert (m : List PriceLevel) (lv : PriceLevel) : List PriceLevel :=
  if m.any (fun x => decide (x.price = lv.price)) then
    m.map (fun x => if x.price = lv.price then lv else x)
  else m ++ [lv]

/-- `price_map.pop(price, None)` (line 120). -/
def mapPop (m : List PriceLevel) (p : ℚ) : List PriceLevel :=
  m.filter (fun x => decide (x.price ≠ p))

/-- The dict comprehension `{level.price: level for level in book_side}`
(line 113): later entries overwrite earlier ones. -/
def buildPriceMap (side : List PriceLevel) : List PriceLevel :=
  side.foldl mapInsert []

/-- The body of the update loop of `_apply_update` (lines 115-122). -/
def applyOne (m : List PriceLevel) (pq : ℚ × ℚ) : List PriceLevel :=
  if pq.2 = 0 then mapPop m pq.1 else mapInsert m ⟨pq.1, pq.2⟩

/-- `OrderBookManager._apply_update` (lines 112-125): build the price map,
apply the updates, and rebuild the side sorted by price (descending when
`reverse=True`).  `insertionSort` returns the same list as CPython `sorted`
here because the prices of the map entries are pairwise distinct. -/
def applySide (updates : List (ℚ × ℚ)) (side : List PriceLevel) (rev : Bool) :
    List PriceLevel :=
  let m := updates.foldl applyOne (buildPriceMap side)
  if rev then List.insertionSort (fun x y => y.price ≤ x.price) m
  else List.insertionSort (fun x y => x.price ≤ y.price) m

/-- The ordering predicate of `process_update` (orderbook.py lines 85-94):
`U` defaults to `u`, `pu` defaults to `_last_u`; the first branch runs when
`_last_u == last_update_id`. -/
def orderingOk (mgr : OrderBookManager) (ev : DepthEvent) : Bool :=
  let U := ev.U.getD ev.u
  let pu := ev.pu.getD mgr.last_u
  if mgr.last_u = mgr.orderbook.last_update_id then
    decide (U ≤ mgr.last_u + 1) && decide (mgr.last_u + 1 ≤ ev.u)
  else
    decide (pu = mgr.last_u)

/-- The mutating tail of `process_update` (lines 96-104): apply both sides,
truncate to depth, and advance `last_update_id`, `timestamp`, `_last_u`. -/
def applyEvent (mgr : OrderBookManager) (ev : DepthEvent) (now : ℚ) :
    OrderBookManager :=
  { mgr with
    orderbook :=
      { mgr.orderbook with
        bids := (applySide ev.b mgr.orderbook.bids true).take mgr.depth
        asks := (applySide ev.a mgr.orderbook.asks false).take mgr.depth
        last_update_id := ev.u
        timestamp := now }
    last_u := ev.u }

/-- The post-apply sanity check (lines 106-108).  `if best_bid and best_ask`
is truthiness again, so a zero best price skips the check. -/
def crossed (ob : OrderBook) : Bool :=
  match ob.best_bid, ob.best_ask with
  | some bb, some ba => decide (bb ≠ 0) && decide (ba ≠ 0) && decide (ba ≤ bb)
  | _, _ => false

/-- `OrderBookManager.process_update` (orderbook.py lines 81-110), returning
the boolean result together with the state after the call. -/
def processUpdate (mgr : OrderBookManager) (ev : DepthEvent) (now : ℚ) :
    Bool × OrderBookManager :=
  if mgr.initialized = false then (false, mgr)
  else if orderingOk mgr ev = false then (false, mgr)
  else
    let mgr' := applyEvent mgr ev now
    if crossed mgr'.orderbook then (false, mgr') else (true, mgr')

/-- Folding `process_update` over a list of events, each paired with the
clock value of its call; collects the (result, post-state) of every call. -/
def runUpdates (mgr : OrderBookManager) :
    List (DepthEvent × ℚ) → List (Bool × OrderBookManager)
  | [] => []
  | (ev, t) :: rest =>
      let r := processUpdate mgr ev t
      r :: runUpdates r.2 rest

/-- Every event of the sequence satisfies the ordering predicate at the
state in which it is processed. -/
def orderingAll (mgr : OrderBookManager) : List (DepthEvent × ℚ) → Bool
  | [] => true
  | (ev, t) :: rest =>
      orderingOk mgr ev && orderingAll (processUpdate mgr ev t).2 rest

section BasicUpdateTheorems

/-- Claim C2: for every initialized book, an event that fails the ordering
predicate (in particular an event that is not the first post-snapshot event
and whose `pu` differs from the stored `_last_u`) makes `process_update`
return false with the entire manager state, book included, exactly
unchanged. -/
theorem C2_reject_leaves_book_unchanged (mgr : OrderBookManager)
    (ev : DepthEvent) (now : ℚ) (hinit : mgr.initialized = true)
    (hfail : orderingOk mgr ev = false) :
    processUpdate mgr ev now = (false, mgr) := by
  simp [processUpdate, hinit, hfail]

/-- Sample manager used to instantiate the update theorems: a synchronized
initialized book. -/
def mgrSyncSample : OrderBookManager :=
  { symbol := "BTCUSDT"
    depth := 20
    orderbook :=
      { symbol := "BTCUSDT"
        bids := [⟨10, 1⟩, ⟨9, 2⟩]
        asks := [⟨11, 2⟩]
        last_update_id := 100
        timestamp := 0 }
    last_u := 100
    initialized := true }

/-- Sample manager whose `_last_u` differs from `last_update_id`. -/
def mgrDesyncSample : OrderBookManager :=
  { mgrSyncSample with last_u := 103 }

/-- Witness for C2 at a concrete desynchronized state: the event carries
`pu = 104` while `_last_u = 103`, is rejected, and the state is returned
unchanged. -/
theorem C2_witness :
    mgrDesyncSample.initialized = true ∧
    mgrDesyncSample.last_u ≠ mgrDesyncSample.orderbook.last_update_id ∧
    orderingOk mgrDesyncSample
      { U := some 104, u := 106, pu := some 104, b := [], a := [] } = false ∧
    processUpdate mgrDesyncSample
      { U := some 104, u := 106, pu := some 104, b := [], a := [] } 0 =
      (false, mgrDesyncSample) :=
  ⟨by decide, by decide, by decide,
    C2_reject_leaves_book_unchanged mgrDesyncSample
      { U := some 104, u := 106, pu := some 104, b := [], a := [] } 0
      (by decide) (by decide)⟩

/-- Claim C3: `process_update` applies the event (producing `applyEvent`)
exactly when the ordering predicate holds, and the predicate is: if
`_last_u = last_update_id` then `U ≤ _last_u + 1 ≤ u` (with `U`
defaulting to `u`), otherwise `pu = _last_u` (with `pu` defaulting to
`_last_u`); an event failing it leaves the state unchanged. -/
theorem C3_applied_iff_ordering (mgr : OrderBookManager) (ev : DepthEvent)
    (now : ℚ) (hinit : mgr.initialized = true) :
    (processUpdate mgr ev now).2 =
      (if orderingOk mgr ev then applyEvent mgr ev now else mgr) ∧
    (orderingOk mgr ev = true ↔
      (if mgr.last_u = mgr.orderbook.last_update_id then
        ev.U.getD ev.u ≤ mgr.last_u + 1 ∧ mgr.last_u + 1 ≤ ev.u
      else ev.pu.getD mgr.last_u = mgr.last_u)) := by
  constructor
  · by_cases hok : orderingOk mgr ev
    · simp only [processUpdate, hinit, Bool.true_eq_false, if_false, hok,
        if_true]
      split <;> rfl
    · have hok' : orderingOk mgr ev = false := by
        revert hok; cases orderingOk mgr ev <;> simp
      simp [processUpdate, hinit, hok', hok]
  · unfold orderingOk
    split <;> simp

/-- Witness for C3 at the synchronized sample state and a gap event. -/
theorem C3_witness :
    (processUpdate mgrSyncSample
        { U := some 105, u := 107, pu := some 104, b := [], a := [] } 0).2 =
      (if orderingOk mgrSyncSample
          { U := some 105, u := 107, pu := some 104, b := [], a := [] } then
        applyEvent mgrSyncSample
          { U := some 105, u := 107, pu := some 104, b := [], a := [] } 0
      else mgrSyncSample) ∧
    (orderingOk mgrSyncSample
        { U := some 105, u := 107, pu := some 104, b := [], a := [] } = true ↔
      (if mgrSyncSample.last_u = mgrSyncSample.orderbook.last_update_id then
        (some (105 : ℤ)).getD 107 ≤ mgrSyncSample.last_u + 1 ∧
          mgrSyncSample.last_u + 1 ≤ 107
      else (some (104 : ℤ)).getD mgrSyncSample.last_u = mgrSyncSample.last_u)) :=
  C3_applied_iff_ordering mgrSyncSample
    { U := some 105, u := 107, pu := some 104, b := [], a := [] } 0 (by decide)

/-- Claim C9: on an initialized book whose `_last_u` differs from
`last_update_id`, an event without a `pu` field always passes the ordering
check, because `pu` is defaulted to the stored `_last_u`, and is applied;
and an event without a `U` field behaves exactly as if `U` were its own
`u`, because of the default `event.get("U", event.get("u"))`. -/
theorem C9_missing_field_defaults (mgr : OrderBookManager) (ev : DepthEvent)
    (now : ℚ) :
    (mgr.initialized = true → mgr.last_u ≠ mgr.orderbook.last_update_id →
      ev.pu = none →
      orderingOk mgr ev = true ∧
        (processUpdate mgr ev now).2 = applyEvent mgr ev now) ∧
    orderingOk mgr { ev with U := none } =
      orderingOk mgr { ev with U := some ev.u } := by
  refine ⟨fun hinit hne hpu => ?_, ?_⟩
  · have hok : orderingOk mgr ev = true := by
      simp [orderingOk, hne, hpu]
    refine ⟨hok, ?_⟩
    simp only [processUpdate, hinit, Bool.true_eq_false, if_false, hok]
    split <;> rfl
  · simp [orderingOk]

/-- Witness for C9: a desynchronized sample state and an event lacking both
`U` and `pu`. -/
theorem C9_witness :
    (mgrDesyncSample.initialized = true →
      mgrDesyncSample.last_u ≠ mgrDesyncSample.orderbook.last_update_id →
      (({ U := none, u := 106, pu := none, b := [], a := [] } :
          DepthEvent)).pu = none →
      orderingOk mgrDesyncSample
          { U := none, u := 106, pu := none, b := [], a := [] } = true ∧
        (processUpdate mgrDesyncSample
            { U := none, u := 106, pu := none, b := [], a := [] } 0).2 =
          applyEvent mgrDesyncSample
            { U := none, u := 106, pu := none, b := [], a := [] } 0) ∧
    orderingOk mgrDesyncSample
        { U := none, u := 106, pu := none, b := [], a := [] } =
      orderingOk mgrDesyncSample
        { U := some 106, u := 106, pu := none, b := [], a := [] } :=
  C9_missing_field_defaults mgrDesyncSample
    { U := none, u := 106, pu := none, b := [], a := [] } 0

end BasicUpdateTheorems

section SequenceTheorems

/-- On a synchronized state (`_last_u = last_update_id`, as established by
`initialize` and re-established by every applied update), an event passing
the ordering predicate is applied, the result is the post-apply sanity
check, and the book update id strictly increases. -/
theorem processUpdate_sync_ok (mgr : OrderBookManager) (ev : DepthEvent)
    (now : ℚ) (hinit : mgr.initialized = true)
    (hsync : mgr.last_u = mgr.orderbook.last_update_id)
    (hok : orderingOk mgr ev = true) :
    processUpdate mgr ev now =
      (!crossed (applyEvent mgr ev now).orderbook, applyEvent mgr ev now) ∧
    mgr.orderbook.last_update_id < ev.u := by
  have h2 : mgr.last_u + 1 ≤ ev.u := by
    unfold orderingOk at hok
    rw [if_pos hsync] at hok
    simp only [Bool.and_eq_true, decide_eq_true_eq] at hok
    exact hok.2
  constructor
  · simp only [processUpdate, hinit, Bool.true_eq_false, if_false, hok]
    cases hcr : crossed (applyEvent mgr ev now).orderbook <;> simp [hcr]
  · omega

/-- An event that crosses a price with quantity 1 onto the bid side of
`mgrSyncSample`, above its best ask; it satisfies the ordering predicate. -/
def evCrossSample : DepthEvent :=
  { U := some 101, u := 103, pu := some 100, b := [(12, 1)], a := [] }

/-- Counterexample to claim C1 as stated: at `mgrSyncSample` the event
`evCrossSample` satisfies the ordering predicate, yet `process_update`
returns false for it (the applied book is crossed), so the predicate does
not make `process_update` accept every event. -/
theorem C1_counterexample :
    mgrSyncSample.initialized = true ∧
    mgrSyncSample.last_u = mgrSyncSample.orderbook.last_update_id ∧
    orderingOk mgrSyncSample evCrossSample = true ∧
    (processUpdate mgrSyncSample evCrossSample 0).1 = false := by decide

/-- Claim C1 (amended): for every initialized synchronized book and every
event sequence in which each event satisfies the ordering predicate at its
point of processing, every event is applied and `last_update_id` is
strictly increasing across the whole run; each call returns true exactly
when the post-apply sanity check passes (the applied book is not crossed).
Since records are only emitted on true returns, consecutive emitted records
carry strictly increasing `last_update_id`. -/
theorem C1_predicate_sequence_increases (mgr : OrderBookManager)
    (evs : List (DepthEvent × ℚ)) (hinit : mgr.initialized = true)
    (hsync : mgr.last_u = mgr.orderbook.last_update_id)
    (hall : orderingAll mgr evs = true) :
    List.Chain (fun a b : ℤ => a < b) mgr.orderbook.last_update_id
      ((runUpdates mgr evs).map (fun r => r.2.orderbook.last_update_id)) ∧
    ∀ r ∈ runUpdates mgr evs, r.1 = !crossed r.2.orderbook := by
  induction evs generalizing mgr with
  | nil => simp [runUpdates]
  | cons e rest ih =>
    obtain ⟨ev, t⟩ := e
    have hall' : orderingOk mgr ev = true ∧
        orderingAll (processUpdate mgr ev t).2 rest = true := by
      simpa [orderingAll] using hall
    have hstep := processUpdate_sync_ok mgr ev t hinit hsync hall'.1
    have h2 : (processUpdate mgr ev t).2 = applyEvent mgr ev t := by
      rw [hstep.1]
    have hlu : (applyEvent mgr ev t).orderbook.last_update_id = ev.u := rfl
    have hinit' : (applyEvent mgr ev t).initialized = true := hinit
    have hsync' : (applyEvent mgr ev t).last_u =
        (applyEvent mgr ev t).orderbook.last_update_id := rfl
    have hrest : orderingAll (applyEvent mgr ev t) rest = true := by
      rw [← h2]; exact hall'.2
    obtain ⟨ihchain, ihall⟩ := ih (applyEvent mgr ev t) hinit' hsync' hrest
    constructor
    · simp only [runUpdates, List.map_cons, h2, hlu]
      exact List.Chain.cons (by omega) ihchain
    · intro r hr
      simp only [runUpdates, List.mem_cons] at hr
      rcases hr with hr | hr
      · subst hr
        rw [hstep.1]
      · rw [h2] at hr
        exact ihall r hr

/-- A first post-snapshot event in the shape of spec scenario 1: deletes
the bid at 9 and adds an ask at 13. -/
def evGoodSample : DepthEvent :=
  { U := some 101, u := 103, pu := none, b := [(9, 0)], a := [(13, 2)] }

/-- Witness for the amended claim C1 on the concrete one-event run of
`evGoodSample` from `mgrSyncSample`. -/
theorem C1_witness :
    List.Chain (fun a b : ℤ => a < b)
      mgrSyncSample.orderbook.last_update_id
      ((runUpdates mgrSyncSample [(evGoodSample, 0)]).map
        (fun r => r.2.orderbook.last_update_id)) ∧
    (processUpdate mgrSyncSample evGoodSample 0).1 =
      !crossed (processUpdate mgrSyncSample evGoodSample 0).2.orderbook := by
  have h := C1_predicate_sequence_increases mgrSyncSample [(evGoodSample, 0)]
    (by decide) (by decide) (by decide)
  refine ⟨h.1, ?_⟩
  have hm : processUpdate mgrSyncSample evGoodSample 0 ∈
      runUpdates mgrSyncSample [(evGoodSample, 0)] := by
    simp [runUpdates]
  exact h.2 _ hm

/-- Claim C8: an event that passes the ordering predicate but whose
application leaves both sides non-empty with positive best prices and
`best_bid ≥ best_ask` makes `process_update` return false, yet the book
HAS been mutated: the levels are applied and truncated to depth, and
`last_update_id`, `_last_u` and `timestamp` advance to the event values. -/
theorem C8_crossed_rejection_mutates (mgr : OrderBookManager)
    (ev : DepthEvent) (now : ℚ) (bb ba : ℚ)
    (hinit : mgr.initialized = true)
    (hok : orderingOk mgr ev = true)
    (hbb : (applyEvent mgr ev now).orderbook.best_bid = some bb)
    (hba : (applyEvent mgr ev now).orderbook.best_ask = some ba)
    (hbbpos : 0 < bb) (hbapos : 0 < ba) (hge : ba ≤ bb) :
    processUpdate mgr ev now = (false, applyEvent mgr ev now) ∧
    (applyEvent mgr ev now).orderbook.bids =
      (applySide ev.b mgr.orderbook.bids true).take mgr.depth ∧
    (applyEvent mgr ev now).orderbook.asks =
      (applySide ev.a mgr.orderbook.asks false).take mgr.depth ∧
    (applyEvent mgr ev now).orderbook.last_update_id = ev.u ∧
    (applyEvent mgr ev now).last_u = ev.u ∧
    (applyEvent mgr ev now).orderbook.timestamp = now := by
  have hcr : crossed (applyEvent mgr ev now).orderbook = true := by
    unfold crossed
    rw [hbb, hba]
    simp [ne_of_gt hbbpos, ne_of_gt hbapos, hge]
  refine ⟨?_, rfl, rfl, rfl, rfl, rfl⟩
  simp [processUpdate, hinit, hok, hcr]

/-- Witness for C8 at the concrete crossing event `evCrossSample`. -/
theorem C8_witness :
    processUpdate mgrSyncSample evCrossSample 0 =
      (false, applyEvent mgrSyncSample evCrossSample 0) ∧
    (applyEvent mgrSyncSample evCrossSample 0).orderbook.bids =
      (applySide evCrossSample.b mgrSyncSample.orderbook.bids true).take
        mgrSyncSample.depth ∧
    (applyEvent mgrSyncSample evCrossSample 0).orderbook.asks =
      (applySide evCrossSample.a mgrSyncSample.orderbook.asks false).take
        mgrSyncSample.depth ∧
    (applyEvent mgrSyncSample evCrossSample 0).orderbook.last_update_id =
      evCrossSample.u ∧
    (applyEvent mgrSyncSample evCrossSample 0).last_u = evCrossSample.u ∧
    (applyEvent mgrSyncSample evCrossSample 0).orderbook.timestamp = 0 :=
  C8_crossed_rejection_mutates mgrSyncSample evCrossSample 0 12 11
    (by decide) (by decide) (by decide) (by decide) (by decide) (by decide)
    (by decide)

end SequenceTheorems

section BookShape

/-- Price positivity of a side, as the data model requires (spec section 3:
prices are positive reals). -/
def posPrices (l : List PriceLevel) : Prop := ∀ lv ∈ l, 0 < lv.price

theorem mapInsert_mem {m : List PriceLevel} {lv x : PriceLevel}
    (hx : x ∈ mapInsert m lv) : x ∈ m ∨ x = lv := by
  unfold mapInsert at hx
  split at hx
  · rcases List.mem_map.mp hx with ⟨y, hy, hxy⟩
    by_cases h : y.price = lv.price
    · right; rw [← hxy]; simp [h]
    · left; rw [← hxy]; simpa [h] using hy
  · rcases List.mem_append.mp hx with h | h
    · left; exact h
    · right; simpa using h

theorem mapInsert_keys {m : List PriceLevel} (lv : PriceLevel)
    (h : (m.map PriceLevel.price).Nodup) :
    ((mapInsert m lv).map PriceLevel.price).Nodup := by
  unfold mapInsert
  split
  · have heq : (m.map (fun x => if x.price = lv.price then lv else x)).map
        PriceLevel.price = m.map PriceLevel.price := by
      rw [List.map_map]
      apply List.map_congr_left
      intro x _
      by_cases hc : x.price = lv.price <;> simp [hc]
    rw [heq]; exact h
  · rename_i hany
    rw [List.map_append]
    rw [List.nodup_append]
    refine ⟨h, List.nodup_singleton _, ?_⟩
    intro p hp hp2
    simp only [List.map_cons, List.map_nil, List.mem_singleton] at hp2
    subst hp2
    rcases List.mem_map.mp hp with ⟨y, hy, hyp⟩
    exact hany (List.any_eq_true.mpr ⟨y, hy, by simp [hyp]⟩)

theorem mapPop_mem {m : List PriceLevel} {p : ℚ} {x : PriceLevel}
    (hx : x ∈ mapPop m p) : x ∈ m :=
  List.mem_of_mem_filter hx

theorem mapPop_keys {m : List PriceLevel} (p : ℚ)
    (h : (m.map PriceLevel.price).Nodup) :
    ((mapPop m p).map PriceLevel.price).Nodup :=
  List.Nodup.sublist ((List.filter_sublist m).map PriceLevel.price) h

theorem applyOne_mem {m : List PriceLevel} {pq : ℚ × ℚ} {x : PriceLevel}
    (hx : x ∈ applyOne m pq) : x ∈ m ∨ x = ⟨pq.1, pq.2⟩ := by
  unfold applyOne at hx
  split at hx
  · exact Or.inl (mapPop_mem hx)
  · exact mapInsert_mem hx

theorem applyOne_keys {m : List PriceLevel} (pq : ℚ × ℚ)
    (h : (m.map PriceLevel.price).Nodup) :
    ((applyOne m pq).map PriceLevel.price).Nodup := by
  unfold applyOne
  split
  · exact mapPop_keys _ h
  · exact mapInsert_keys _ h

theorem foldl_mapInsert_keys (side : List PriceLevel) :
    ∀ acc : List PriceLevel, (acc.map PriceLevel.price).Nodup →
      ((side.foldl mapInsert acc).map PriceLevel.price).Nodup := by
  induction side with
  | nil => intro acc h; simpa using h
  | cons x xs ih => intro acc h; exact ih _ (mapInsert_keys _ h)

theorem foldl_mapInsert_mem (side : List PriceLevel) :
    ∀ acc : List PriceLevel, ∀ x ∈ side.foldl mapInsert acc,
      x ∈ acc ∨ x ∈ side := by
  induction side with
  | nil => intro acc x hx; exact Or.inl (by simpa using hx)
  | cons y ys ih =>
      intro acc x hx
      rcases ih (mapInsert acc y) x (by simpa using hx) with h | h
      · rcases mapInsert_mem h with h2 | h2
        · exact Or.inl h2
        · exact Or.inr (by simp [h2])
      · exact Or.inr (by simp [h])

theorem buildPriceMap_keys (side : List PriceLevel) :
    ((buildPriceMap side).map PriceLevel.price).Nodup :=
  foldl_mapInsert_keys side [] (by simp)

theorem buildPriceMap_mem {side : List PriceLevel} {x : PriceLevel}
    (hx : x ∈ buildPriceMap side) : x ∈ side := by
  rcases foldl_mapInsert_mem side [] x hx with h | h
  · simp at h
  · exact h

theorem foldl_applyOne_keys (upd : List (ℚ × ℚ)) :
    ∀ acc : List PriceLevel, (acc.map PriceLevel.price).Nodup →
      ((upd.foldl applyOne acc).map PriceLevel.price).Nodup := by
  induction upd with
  | nil => intro acc h; simpa using h
  | cons pq rest ih => intro acc h; exact ih _ (applyOne_keys _ h)

theorem foldl_applyOne_mem (upd : List (ℚ × ℚ)) :
    ∀ acc : List PriceLevel, ∀ x ∈ upd.foldl applyOne acc,
      x ∈ acc ∨ ∃ pq ∈ upd, x = ⟨pq.1, pq.2⟩ := by
  induction upd with
  | nil => intro acc x hx; exact Or.inl (by simpa using hx)
  | cons pq rest ih =>
      intro acc x hx
      rcases ih (applyOne acc pq) x (by simpa using hx) with h | h
      · rcases applyOne_mem h with h2 | h2
        · exact Or.inl h2
        · exact Or.inr ⟨pq, by simp, h2⟩
      · rcases h with ⟨pq2, hpq2, hx2⟩
        exact Or.inr ⟨pq2, by simp [hpq2], hx2⟩

theorem applySide_perm (upd : List (ℚ × ℚ)) (side : List PriceLevel)
    (rev : Bool) :
    List.Perm (applySide upd side rev)
      (upd.foldl applyOne (buildPriceMap side)) := by
  unfold applySide
  cases rev <;> simp [List.perm_insertionSort]

theorem applySide_keys (upd : List (ℚ × ℚ)) (side : List PriceLevel)
    (rev : Bool) :
    ((applySide upd side rev).map PriceLevel.price).Nodup :=
  (((applySide_perm upd side rev).map PriceLevel.price).nodup_iff).mpr
    (foldl_applyOne_keys upd _ (buildPriceMap_keys side))

theorem applySide_mem {upd : List (ℚ × ℚ)} {side : List PriceLevel}
    {rev : Bool} {x : PriceLevel} (hx : x ∈ applySide upd side rev) :
    x ∈ side ∨ ∃ pq ∈ upd, x = ⟨pq.1, pq.2⟩ := by
  have hx2 := (applySide_perm upd side rev).mem_iff.mp hx
  rcases foldl_applyOne_mem upd _ x hx2 with h | h
  · exact Or.inl (buildPriceMap_mem h)
  · exact Or.inr h

theorem applySide_pos {upd : List (ℚ × ℚ)} {side : List PriceLevel}
    {rev : Bool} (hside : posPrices side) (hupd : ∀ pq ∈ upd, 0 < pq.1) :
    posPrices (applySide upd side rev) := by
  intro lv hlv
  rcases applySide_mem hlv with h | ⟨pq, hpq, hlv2⟩
  · exact hside lv h
  · rw [hlv2]; exact hupd pq hpq

theorem applySide_sorted_desc (upd : List (ℚ × ℚ)) (side : List PriceLevel) :
    (applySide upd side true).Pairwise (fun x y => y.price < x.price) := by
  haveI : IsTotal PriceLevel (fun x y => y.price ≤ x.price) :=
    ⟨fun a b => le_total b.price a.price⟩
  haveI : IsTrans PriceLevel (fun x y => y.price ≤ x.price) :=
    ⟨fun _ _ _ h1 h2 => le_trans h2 h1⟩
  have hsorted : (applySide upd side true).Pairwise
      (fun x y => y.price ≤ x.price) := by
    unfold applySide
    simpa using List.sorted_insertionSort _ _
  have hne : (applySide upd side true).Pairwise
      (fun x y => x.price ≠ y.price) :=
    (List.pairwise_map).mp (applySide_keys upd side true)
  exact hsorted.imp₂ (fun _ _ hle hneq => lt_of_le_of_ne hle hneq.symm) hne

theorem applySide_sorted_asc (upd : List (ℚ × ℚ)) (side : List PriceLevel) :
    (applySide upd side false).Pairwise (fun x y => x.price < y.price) := by
  haveI : IsTotal PriceLevel (fun x y => x.price ≤ y.price) :=
    ⟨fun a b => le_total a.price b.price⟩
  haveI : IsTrans PriceLevel (fun x y => x.price ≤ y.price) :=
    ⟨fun _ _ _ h1 h2 => le_trans h1 h2⟩
  have hsorted : (applySide upd side false).Pairwise
      (fun x y => x.price ≤ y.price) := by
    unfold applySide
    simpa using List.sorted_insertionSort _ _
  have hne : (applySide upd side false).Pairwise
      (fun x y => x.price ≠ y.price) :=
    (List.pairwise_map).mp (applySide_keys upd side false)
  exact hsorted.imp₂ (fun _ _ hle hneq => lt_of_le_of_ne hle hneq) hne

/-- Shape of every `process_update` outcome: either the state is returned
unchanged with a false result, or the state is `applyEvent` and the result
is the post-apply sanity check. -/
theorem processUpdate_cases (mgr : OrderBookManager) (ev : DepthEvent)
    (now : ℚ) :
    processUpdate mgr ev now = (false, mgr) ∨
    processUpdate mgr ev now =
      (!crossed (applyEvent mgr ev now).orderbook, applyEvent mgr ev now) := by
  unfold processUpdate
  by_cases h1 : mgr.initialized = false
  · exact Or.inl (by simp [h1])
  · by_cases h2 : orderingOk mgr ev = false
    · exact Or.inl (by simp [h1, h2])
    · refine Or.inr ?_
      simp only [h1, h2, if_false]
      cases hcr : crossed (applyEvent mgr ev now).orderbook <;> simp [hcr]

theorem processUpdate_pos {mgr : OrderBookManager} {ev : DepthEvent}
    {now : ℚ} (hb : posPrices mgr.orderbook.bids)
    (ha : posPrices mgr.orderbook.asks)
    (hevb : ∀ pq ∈ ev.b, 0 < pq.1) (heva : ∀ pq ∈ ev.a, 0 < pq.1) :
    posPrices (processUpdate mgr ev now).2.orderbook.bids ∧
    posPrices (processUpdate mgr ev now).2.orderbook.asks := by
  rcases processUpdate_cases mgr ev now with h | h <;> rw [h]
  · exact ⟨hb, ha⟩
  · constructor
    · intro lv hlv
      exact applySide_pos hb hevb lv (List.mem_of_mem_take hlv)
    · intro lv hlv
      exact applySide_pos ha heva lv (List.mem_of_mem_take hlv)

/-- Single accepted update: the new book satisfies all shape invariants. -/
theorem processUpdate_true_invariants {mgr : OrderBookManager}
    {ev : DepthEvent} {now : ℚ} (hb : posPrices mgr.orderbook.bids)
    (ha : posPrices mgr.orderbook.asks)
    (hevb : ∀ pq ∈ ev.b, 0 < pq.1) (heva : ∀ pq ∈ ev.a, 0 < pq.1)
    (htrue : (processUpdate mgr ev now).1 = true) :
    ((processUpdate mgr ev now).2.orderbook.bids.map PriceLevel.price).Nodup ∧
    ((processUpdate mgr ev now).2.orderbook.asks.map PriceLevel.price).Nodup ∧
    (processUpdate mgr ev now).2.orderbook.bids.Pairwise
      (fun x y => y.price < x.price) ∧
    (processUpdate mgr ev now).2.orderbook.asks.Pairwise
      (fun x y => x.price < y.price) ∧
    ∀ bb ba, (processUpdate mgr ev now).2.orderbook.best_bid = some bb →
      (processUpdate mgr ev now).2.orderbook.best_ask = some ba → bb < ba := by
  rcases processUpdate_cases mgr ev now with h | h
  · rw [h] at htrue; simp at htrue
  have hcross : crossed (applyEvent mgr ev now).orderbook = false := by
    rw [h] at htrue
    simpa using htrue
  rw [h]
  have hkb : (((applySide ev.b mgr.orderbook.bids true).take
      mgr.depth).map PriceLevel.price).Nodup :=
    List.Nodup.sublist ((List.take_sublist _ _).map PriceLevel.price)
      (applySide_keys ev.b mgr.orderbook.bids true)
  have hka : (((applySide ev.a mgr.orderbook.asks false).take
      mgr.depth).map PriceLevel.price).Nodup :=
    List.Nodup.sublist ((List.take_sublist _ _).map PriceLevel.price)
      (applySide_keys ev.a mgr.orderbook.asks false)
  have hsb : ((applySide ev.b mgr.orderbook.bids true).take
      mgr.depth).Pairwise (fun x y => y.price < x.price) :=
    (applySide_sorted_desc ev.b mgr.orderbook.bids).sublist
      (List.take_sublist _ _)
  have hsa : ((applySide ev.a mgr.orderbook.asks false).take
      mgr.depth).Pairwise (fun x y => x.price < y.price) :=
    (applySide_sorted_asc ev.a mgr.orderbook.asks).sublist
      (List.take_sublist _ _)
  refine ⟨hkb, hka, hsb, hsa, ?_⟩
  intro bb ba hbb hba
  have hbbmem : ∃ lvb, ((applySide ev.b mgr.orderbook.bids true).take
      mgr.depth).head? = some lvb ∧ lvb.price = bb := by
    unfold OrderBook.best_bid at hbb
    simp only [applyEvent] at hbb
    rcases Option.map_eq_some'.mp hbb with ⟨lvb, h1, h2⟩
    exact ⟨lvb, h1, h2⟩
  have hbamem : ∃ lva, ((applySide ev.a mgr.orderbook.asks false).take
      mgr.depth).head? = some lva ∧ lva.price = ba := by
    unfold OrderBook.best_ask at hba
    simp only [applyEvent] at hba
    rcases Option.map_eq_some'.mp hba with ⟨lva, h1, h2⟩
    exact ⟨lva, h1, h2⟩
  rcases hbbmem with ⟨lvb, hlvb, hlvbp⟩
  rcases hbamem with ⟨lva, hlva, hlvap⟩
  have hbbpos : 0 < bb := by
    rw [← hlvbp]
    exact applySide_pos hb hevb lvb
      (List.mem_of_mem_take (List.mem_of_mem_head? hlvb))
  have hbapos : 0 < ba := by
    rw [← hlvap]
    exact applySide_pos ha heva lva
      (List.mem_of_mem_take (List.mem_of_mem_head? hlva))
  unfold crossed at hcross
  have hbb2 : (applyEvent mgr ev now).orderbook.best_bid = some bb := hbb
  have hba2 : (applyEvent mgr ev now).orderbook.best_ask = some ba := hba
  rw [hbb2, hba2] at hcross
  simp only [Bool.and_eq_false_iff, decide_eq_false_iff_not, not_not,
    decide_eq_true_eq] at hcross
  rcases hcross with (h0 | h0) | h0
  · exact absurd h0 (ne_of_gt hbbpos)
  · exact absurd h0 (ne_of_gt hbapos)
  · exact lt_of_not_le h0

/-- Claim C4: starting from any snapshot-seeded book with positive prices
(the data model of the spec), along any sequence of updates with positive
event prices, after every accepted update (`process_update` returned true)
the bids are strictly descending in price, the asks strictly ascending, no
price occurs twice on a side, and whenever both sides are non-empty the
best bid is strictly below the best ask. -/
theorem C4_accepted_updates_keep_book_shape (mgr : OrderBookManager)
    (evs : List (DepthEvent × ℚ)) (hb : posPrices mgr.orderbook.bids)
    (ha : posPrices mgr.orderbook.asks)
    (hev : ∀ e ∈ evs, (∀ pq ∈ e.1.b, 0 < pq.1) ∧ (∀ pq ∈ e.1.a, 0 < pq.1)) :
    ∀ r ∈ runUpdates mgr evs, r.1 = true →
      (r.2.orderbook.bids.map PriceLevel.price).Nodup ∧
      (r.2.orderbook.asks.map PriceLevel.price).Nodup ∧
      r.2.orderbook.bids.Pairwise (fun x y => y.price < x.price) ∧
      r.2.orderbook.asks.Pairwise (fun x y => x.price < y.price) ∧
      ∀ bb ba, r.2.orderbook.best_bid = some bb →
        r.2.orderbook.best_ask = some ba → bb < ba := by
  induction evs generalizing mgr with
  | nil => intro r hr; simp [runUpdates] at hr
  | cons e rest ih =>
      obtain ⟨ev, t⟩ := e
      intro r hr htrue
      have hevhead := hev (ev, t) (by simp)
      simp only [runUpdates, List.mem_cons] at hr
      rcases hr with hr | hr
      · subst hr
        exact processUpdate_true_invariants hb ha hevhead.1 hevhead.2 htrue
      · have hpos := @processUpdate_pos mgr ev t hb ha hevhead.1 hevhead.2
        exact ih (processUpdate mgr ev t).2 hpos.1 hpos.2
          (fun e2 he2 => hev e2 (by simp [he2])) r hr htrue

/-- Witness for C4: the accepted run of `evGoodSample` from
`mgrSyncSample`. -/
theorem C4_witness :
    ((processUpdate mgrSyncSample evGoodSample 0).2.orderbook.bids.map
      PriceLevel.price).Nodup ∧
    ((processUpdate mgrSyncSample evGoodSample 0).2.orderbook.asks.map
      PriceLevel.price).Nodup ∧
    (processUpdate mgrSyncSample evGoodSample 0).2.orderbook.bids.Pairwise
      (fun x y => y.price < x.price) ∧
    (processUpdate mgrSyncSample evGoodSample 0).2.orderbook.asks.Pairwise
      (fun x y => x.price < y.price) ∧
    ∀ bb ba,
      (processUpdate mgrSyncSample evGoodSample 0).2.orderbook.best_bid =
        some bb →
      (processUpdate mgrSyncSample evGoodSample 0).2.orderbook.best_ask =
        some ba → bb < ba := by
  have h := C4_accepted_updates_keep_book_shape mgrSyncSample
    [(evGoodSample, 0)] (by unfold posPrices; decide)
    (by unfold posPrices; decide) (by decide)
  exact h (processUpdate mgrSyncSample evGoodSample 0) (by simp [runUpdates])
    (by decide)

end BookShape

/-- The `OFIState` dataclass with its defaults (ofi_calculator.py lines
14-20). -/
structure OFIState where
  raw : ℚ := 0
  ema : ℚ := 0
  std : ℚ := 1
  z_score : ℚ := 0
  signal : String := "NEUTRAL"
deriving DecidableEq

/-- The mean inside `_std` (ofi_calculator.py line 26). -/
def listMean (v : List ℚ) : ℚ := v.sum / v.length

/-- The population variance inside `_std` (line 27). -/
def popVar (v : List ℚ) : ℚ :=
  (v.map (fun x => (x - listMean v) ^ 2)).sum / v.length

/-- `_std` (lines 23-28), with `math.sqrt` supplied as `sqrtQ`: zero on the
empty list, otherwise the square root of the population variance. -/
def stdQ (sqrtQ : ℚ → ℚ) (v : List ℚ) : ℚ :=
  if v = [] then 0 else sqrtQ (popVar v)

/-- Last-wins dict lookup with default 0, modelling
`{p: q for p, q in xs}.get(price, 0)` (lines 77-88). -/
def qtyAt (m : List (ℚ × ℚ)) (p : ℚ) : ℚ :=
  match m.reverse.find? (fun pq => decide (pq.1 = p)) with
  | some pq => pq.2
  | none => 0

/-- One side of `_calculate_raw_ofi` (lines 82-88): the sum of quantity
deltas over the union of the price sets, missing prices counting as 0. -/
def sideDelta (prev curr : List (ℚ × ℚ)) : ℚ :=
  ((prev.map Prod.fst ++ curr.map Prod.fst).dedup).foldl
    (fun s p => s + (qtyAt curr p - qtyAt prev p)) 0

/-- `deque(maxlen=cap).append x` (line 40 and line 60): append, evicting
the oldest entry when the deque is full. -/
def pushHist (cap : ℕ) (h : List ℚ) (x : ℚ) : List ℚ :=
  if h.length < cap then h ++ [x] else h.drop 1 ++ [x]

/-- `_get_signal` (lines 92-101). -/
def getSignal (z : ℚ) : String :=
  if 2 < z then "STRONG_BUY"
  else if 1 < z then "BUY"
  else if z < -2 then "STRONG_SELL"
  else if z < -1 then "SELL"
  else "NEUTRAL"

/-- The `OFICalculator` state (ofi_calculator.py lines 31-41). -/
structure OFICalculator where
  depth : ℕ
  ema_span : ℕ
  history_size : ℕ
  alpha : ℚ
  prev_bids : Option (List (ℚ × ℚ))
  prev_asks : Option (List (ℚ × ℚ))
  ema : ℚ
  history : List ℚ
  initialized : Bool
deriving DecidableEq

/-- The `OFICalculator` constructor (lines 32-41). -/
def mkOFICalculator (depth ema_span history_size : ℕ) : OFICalculator :=
  { depth, ema_span, history_size
    alpha := 2 / ((ema_span : ℚ) + 1)
    prev_bids := none, prev_asks := none
    ema := 0, history := [], initialized := false }

/-- `OFICalculator.update` (lines 43-74); `sqrtQ` models `math.sqrt`. -/
def OFICalculator.update (c : OFICalculator) (sqrtQ : ℚ → ℚ)
    (ob : OrderBook) : OFICalculator × OFIState :=
  let bids := (ob.bids.take c.depth).map (fun l => (l.price, l.quantity))
  let asks := (ob.asks.take c.depth).map (fun l => (l.price, l.quantity))
  match c.prev_bids with
  | none => ({ c with prev_bids := some bids, prev_asks := some asks }, {})
  | some pb =>
      let raw_ofi := sideDelta pb bids - sideDelta (c.prev_asks.getD []) asks
      let ema2 := if c.initialized = false then raw_ofi
        else c.alpha * raw_ofi + (1 - c.alpha) * c.ema
      let hist2 := pushHist c.history_size c.history raw_ofi
      let stdz : ℚ × ℚ :=
        if 20 ≤ hist2.length then
          let s := stdQ sqrtQ hist2
          (s, if 0 < s then ema2 / s else 0)
        else (1, 0)
      ({ c with
          prev_bids := some bids
          prev_asks := some asks
          ema := ema2
          history := hist2
          initialized := true },
        { raw := raw_ofi, ema := ema2, std := stdz.1, z_score := stdz.2,
          signal := getSignal stdz.2 })

/-- Folding `OFICalculator.update` over a sequence of snapshots, collecting
the returned states. -/
def ofiRun (sqrtQ : ℚ → ℚ) (c : OFICalculator) :
    List OrderBook → List OFIState
  | [] => []
  | ob :: rest =>
      let r := c.update sqrtQ ob
      r.2 :: ofiRun sqrtQ r.1 rest

section OfiTheorems

theorem pushHist_length (cap : ℕ) (h : List ℚ) (x : ℚ) :
    (pushHist cap h x).length ≤ h.length + 1 := by
  unfold pushHist
  split
  · simp
  · simp [List.length_drop]

/-- After the first snapshot has been recorded, as long as the history plus
the remaining calls stay below 20 entries, every returned z-score is 0. -/
theorem ofiRun_z_zero_of_prev (sqrtQ : ℚ → ℚ) (obs : List OrderBook) :
    ∀ c : OFICalculator, ∀ pb, c.prev_bids = some pb →
      c.history.length + obs.length ≤ 19 →
      ∀ s ∈ ofiRun sqrtQ c obs, s.z_score = 0 := by
  induction obs with
  | nil => intro c pb _ _ s hs; simp [ofiRun] at hs
  | cons ob rest ih =>
      intro c pb hpb hlen s hs
      simp only [ofiRun, OFICalculator.update, hpb, List.mem_cons] at hs
      have hl2 : (pushHist c.history_size c.history
          (sideDelta pb ((ob.bids.take c.depth).map
            (fun l => (l.price, l.quantity))) -
           sideDelta (c.prev_asks.getD [])
            ((ob.asks.take c.depth).map
              (fun l => (l.price, l.quantity))))).length ≤
          c.history.length + 1 :=
        pushHist_length _ _ _
      have hnot : ¬ 20 ≤ (pushHist c.history_size c.history
          (sideDelta pb ((ob.bids.take c.depth).map
            (fun l => (l.price, l.quantity))) -
           sideDelta (c.prev_asks.getD [])
            ((ob.asks.take c.depth).map
              (fun l => (l.price, l.quantity))))).length := by
        simp only [List.length_cons] at hlen
        omega
      rcases hs with hs | hs
      · rw [hs]
        dsimp only
        rw [if_neg hnot]
      · refine ih _ _ rfl ?_ s hs
        simp only [List.length_cons] at hlen
        dsimp only
        omega

/-- Claim C5: from a fresh default `OFICalculator`, each of the first 19
calls to `update` (in fact the first 20) returns a z-score of exactly zero;
and in general the returned z-score is `ema / std` with `std` the
population standard deviation of the raw-OFI history only when the history
holds at least 20 entries and `std > 0`, and is exactly zero otherwise. -/
theorem C5_zscore_zero_warmup (sqrtQ : ℚ → ℚ) :
    (∀ obs : List OrderBook, obs.length ≤ 19 →
      ∀ s ∈ ofiRun sqrtQ (mkOFICalculator 10 20 100) obs, s.z_score = 0) ∧
    (∀ (c : OFICalculator) (ob : OrderBook) (pb : List (ℚ × ℚ)),
      c.prev_bids = some pb →
      ((20 ≤ (c.update sqrtQ ob).1.history.length ∧
          0 < (c.update sqrtQ ob).2.std) →
        (c.update sqrtQ ob).2.std =
          stdQ sqrtQ (c.update sqrtQ ob).1.history ∧
        (c.update sqrtQ ob).2.z_score =
          (c.update sqrtQ ob).2.ema / (c.update sqrtQ ob).2.std) ∧
      (¬ (20 ≤ (c.update sqrtQ ob).1.history.length ∧
          0 < (c.update sqrtQ ob).2.std) →
        (c.update sqrtQ ob).2.z_score = 0)) := by
  constructor
  · intro obs hlen s hs
    cases obs with
    | nil => simp [ofiRun] at hs
    | cons ob rest =>
        have hnone : (mkOFICalculator 10 20 100).prev_bids = none := rfl
        simp only [ofiRun, OFICalculator.update, hnone, List.mem_cons] at hs
        rcases hs with hs | hs
        · rw [hs]
        · refine ofiRun_z_zero_of_prev sqrtQ rest _ _ rfl ?_ s hs
          simp only [List.length_cons] at hlen
          simp only [mkOFICalculator, List.length_nil]
          omega
  · intro c ob pb hpb
    simp only [OFICalculator.update, hpb]
    by_cases h20 : 20 ≤ (pushHist c.history_size c.history
        (sideDelta pb (List.map (fun l => (l.price, l.quantity))
          (List.take c.depth ob.bids)) -
         sideDelta (c.prev_asks.getD [])
          (List.map (fun l => (l.price, l.quantity))
            (List.take c.depth ob.asks)))).length
    · rw [if_pos h20]
      dsimp only
      by_cases hstd : 0 < stdQ sqrtQ (pushHist c.history_size c.history
          (sideDelta pb (List.map (fun l => (l.price, l.quantity))
            (List.take c.depth ob.bids)) -
           sideDelta (c.prev_asks.getD [])
            (List.map (fun l => (l.price, l.quantity))
              (List.take c.depth ob.asks))))
      · rw [if_pos hstd]
        exact ⟨fun _ => ⟨rfl, rfl⟩, fun hn => absurd ⟨h20, hstd⟩ hn⟩
      · rw [if_neg hstd]
        exact ⟨fun hx => absurd hx.2 hstd, fun _ => rfl⟩
    · rw [if_neg h20]
      dsimp only
      exact ⟨fun hx => absurd hx.1 h20, fun _ => rfl⟩

/-- A flat one-level book used to instantiate the OFI theorems. -/
def obFlatSample : OrderBook :=
  { symbol := "BTCUSDT", bids := [⟨10, 1⟩], asks := [⟨11, 1⟩] }

/-- The calculator state right after a first snapshot has been recorded. -/
def ofiSeededSample : OFICalculator :=
  { mkOFICalculator 10 20 100 with
    prev_bids := some [(10, 1)], prev_asks := some [(11, 1)] }

/-- Witness for C5: the first call from a fresh calculator returns the
zeroed state, and a second call with fewer than 20 history entries also
returns a zero z-score. -/
theorem C5_witness :
    (⟨0, 0, 1, 0, "NEUTRAL"⟩ : OFIState) ∈
      ofiRun (fun q => q) (mkOFICalculator 10 20 100) [obFlatSample] ∧
    (⟨0, 0, 1, 0, "NEUTRAL"⟩ : OFIState).z_score = 0 ∧
    (ofiSeededSample.update (fun q => q) obFlatSample).2.z_score = 0 := by
  have h := C5_zscore_zero_warmup (fun q => q)
  refine ⟨by decide, ?_, ?_⟩
  · exact h.1 [obFlatSample] (by decide) _ (by decide)
  · exact (h.2 ofiSeededSample obFlatSample [(10, 1)] (by decide)).2
      (by decide)

end OfiTheorems

/-- `WallSide` (wall_tracker.py lines 19-21). -/
inductive WallSide where
  | bid
  | ask
deriving DecidableEq

/-- The `Wall` dataclass (wall_tracker.py lines 24-34); clock values are
passed in explicitly. -/
structure Wall where
  price : ℚ
  side : WallSide
  initial_qty : ℚ
  current_qty : ℚ
  first_seen : ℚ
  last_seen : ℚ
  replenish_count : ℕ
  test_count : ℕ
  peak_qty : ℚ
deriving DecidableEq

/-- The `Wall` constructor composed with `__post_init__` (lines 36-37):
fields defaulted as in `_process_side` (lines 121-128), with
`peak_qty = max(0, initial_qty)`. -/
def mkWall (price : ℚ) (side : WallSide) (qty now : ℚ) : Wall :=
  { price, side
    initial_qty := qty
    current_qty := qty
    first_seen := now
    last_seen := now
    replenish_count := 0
    test_count := 0
    peak_qty := max 0 qty }

/-- Key of the wall dict: `(price, side)` (line 101). -/
abbrev WallKey := ℚ × WallSide

/-- The insertion-ordered dict `self.walls`, as an association list. -/
abbrev WallMap := List (WallKey × Wall)

/-- Dict lookup `self.walls[key]` / `key in self.walls`. -/
def wmFind (m : WallMap) (k : WallKey) : Option Wall :=
  (m.find? (fun kw => decide (kw.1 = k))).map Prod.snd

/-- Dict store `self.walls[key] = w`: replace in place when the key is
present, append otherwise (CPython dict semantics). -/
def wmSet (m : WallMap) (k : WallKey) (w : Wall) : WallMap :=
  if m.any (fun kw => decide (kw.1 = k)) then
    m.map (fun kw => if kw.1 = k then (k, w) else kw)
  else m ++ [(k, w)]

/-- The events emitted by `WallTracker` (lines 110, 130, 141-147), each
carrying the wall dict payload taken at emission time. -/
inductive WallEvent where
  | newWall (w : Wall)
  | replenish (w : Wall)
  | removed (w : Wall) (reason : String)
deriving DecidableEq

/-- The (price, side) key of the wall carried by an event. -/
def WallEvent.key : WallEvent → WallKey
  | .newWall w => (w.price, w.side)
  | .replenish w => (w.price, w.side)
  | .removed w _ => (w.price, w.side)

/-- The test pass of `_process_side` (lines 112-115): `if current_price:`
is truthiness, so a zero mid skips the test; the relative distance to the
wall must be below 0.003. -/
def testsWall (current_price : Option ℚ) (price : ℚ) : Bool :=
  match current_price with
  | none => false
  | some m => decide (m ≠ 0) && decide (|m - price| / price < 3 / 1000)

/-- The body of the level loop of `_process_side` (wall_tracker.py lines
97-130), threading the wall map and the event list. -/
def processLevel (threshold : ℚ) (side : WallSide) (current_price : Option ℚ)
    (now : ℚ) (acc : WallMap × List WallEvent) (level : PriceLevel) :
    WallMap × List WallEvent :=
  let price := level.price
  let qty := level.quantity
  let key : WallKey := (price, side)
  if threshold ≤ level.notional then
    match wmFind acc.1 key with
    | some wall =>
        let repl : Wall × List WallEvent :=
          if wall.current_qty * (6 / 5) < qty then
            let w := { wall with replenish_count := wall.replenish_count + 1 }
            (w, [WallEvent.replenish w])
          else (wall, [])
        let wall2 :=
          if testsWall current_price price then
            { repl.1 with test_count := repl.1.test_count + 1 }
          else repl.1
        let wall3 := { wall2 with
          current_qty := qty
          peak_qty := max wall2.peak_qty qty
          last_seen := now }
        (wmSet acc.1 key wall3, acc.2 ++ repl.2)
    | none =>
        let w := mkWall price side qty now
        (wmSet acc.1 key w, acc.2 ++ [WallEvent.newWall w])
  else acc

/-- `WallTracker._process_side` (lines 94-132). -/
def processSide (threshold : ℚ) (levels : List PriceLevel) (side : WallSide)
    (current_price : Option ℚ) (now : ℚ) (walls : WallMap) :
    WallMap × List WallEvent :=
  levels.foldl (processLevel threshold side current_price now) (walls, [])

/-- The levels of the side a `WallKey` refers to. -/
def sideOf (ob : OrderBook) : WallSide → List PriceLevel
  | .bid => ob.bids
  | .ask => ob.asks

/-- The set of keyed prices of the current book built by
`_cleanup_dead_walls` (line 136). -/
def allPrices (ob : OrderBook) : List WallKey :=
  ob.bids.map (fun l => (l.price, WallSide.bid)) ++
    ob.asks.map (fun l => (l.price, WallSide.ask))

/-- `WallTracker._cleanup_dead_walls` (lines 134-153): emit `WALL_REMOVED`
for every tracked wall whose key is absent from the current book, reason
`consumed` when it was tested, and drop it. -/
def cleanupDeadWalls (ob : OrderBook) (walls : WallMap) :
    WallMap × List WallEvent :=
  let dead := walls.filter
    (fun kw => !(allPrices ob).any (fun k2 => decide (k2 = kw.1)))
  let events := dead.map (fun kw => WallEvent.removed kw.2
    (if 0 < kw.2.test_count then "consumed" else "cancelled"))
  (walls.filter (fun kw => (allPrices ob).any (fun k2 => decide (k2 = kw.1))),
    events)

/-- `WallTracker.update` (wall_tracker.py lines 84-92): process bids, then
asks, then cleanup; events in that order. -/
def wtUpdate (threshold : ℚ) (walls : WallMap) (ob : OrderBook) (now : ℚ) :
    WallMap × List WallEvent :=
  let current_price := ob.mid_price
  let r1 := processSide threshold ob.bids WallSide.bid current_price now walls
  let r2 := processSide threshold ob.asks WallSide.ask current_price now r1.1
  let r3 := cleanupDeadWalls ob r2.1
  (r3.1, r1.2 ++ r2.2 ++ r3.2)

/-- Well-formedness of the wall map, maintained by the tracker from its
empty start: every entry is stored at the key formed from its own wall, and
keys are unique (a Python dict cannot hold a key twice). -/
def wmWF (m : WallMap) : Prop :=
  (∀ kw ∈ m, kw.1 = (kw.2.price, kw.2.side)) ∧ (m.map Prod.fst).Nodup

section WallMapLemmas

theorem wmFind_wmSet_self (m : WallMap) (k : WallKey) (w : Wall) :
    wmFind (wmSet m k w) k = some w := by
  unfold wmSet wmFind
  split
  · rename_i hany
    induction m with
    | nil => simp at hany
    | cons kw rest ih =>
        by_cases hk : kw.1 = k
        · simp [hk]
        · have hany2 : rest.any (fun kw => decide (kw.1 = k)) = true := by
            simpa [List.any_cons, hk] using hany
          simpa [hk] using ih hany2
  · induction m with
    | nil => simp
    | cons kw rest ih =>
        rename_i hany
        have hk : ¬ kw.1 = k := by
          intro hcontra
          exact hany (by simp [List.any_cons, hcontra])
        have hany2 : ¬ rest.any (fun kw => decide (kw.1 = k)) = true := by
          intro hcontra
          exact hany (by simp [List.any_cons, hcontra])
        simpa [hk] using ih hany2

theorem find_map_replace_ne (m : WallMap) (k : WallKey) (w : Wall)
    (k2 : WallKey) (hne : k2 ≠ k) :
    (m.map (fun kw => if kw.1 = k then (k, w) else kw)).find?
      (fun kw => decide (kw.1 = k2)) =
    m.find? (fun kw => decide (kw.1 = k2)) := by
  induction m with
  | nil => rfl
  | cons kw rest ih =>
      by_cases hk : kw.1 = k
      · have hk2 : ¬ (((k, w) : WallKey × Wall).1 = k2) := fun h => hne h.symm
        have hk3 : ¬ kw.1 = k2 := fun h => hne (by rw [← h]; exact hk)
        rw [List.map_cons, if_pos hk]
        rw [List.find?_cons_of_neg _ (by simpa using hk2),
          List.find?_cons_of_neg _ (by simpa using hk3)]
        exact ih
      · by_cases hk4 : kw.1 = k2
        · rw [List.map_cons, if_neg hk]
          rw [List.find?_cons_of_pos _ (by simpa using hk4),
            List.find?_cons_of_pos _ (by simpa using hk4)]
        · rw [List.map_cons, if_neg hk]
          rw [List.find?_cons_of_neg _ (by simpa using hk4),
            List.find?_cons_of_neg _ (by simpa using hk4)]
          exact ih

theorem find_append_single_ne (m : WallMap) (k : WallKey) (w : Wall)
    (k2 : WallKey) (hne : k2 ≠ k) :
    (m ++ [(k, w)]).find? (fun kw => decide (kw.1 = k2)) =
    m.find? (fun kw => decide (kw.1 = k2)) := by
  induction m with
  | nil =>
      have h : ¬ (k = k2) := fun h => hne h.symm
      simp [h]
  | cons kw rest ih =>
      by_cases hk4 : kw.1 = k2
      · simp [hk4]
      · simpa [hk4] using ih

theorem wmFind_wmSet_ne (m : WallMap) (k : WallKey) (w : Wall) (k2 : WallKey)
    (hne : k2 ≠ k) : wmFind (wmSet m k w) k2 = wmFind m k2 := by
  unfold wmSet wmFind
  split
  · rw [find_map_replace_ne m k w k2 hne]
  · rw [find_append_single_ne m k w k2 hne]

theorem wmSet_entries {m : WallMap} {k : WallKey} {w : Wall} :
    ∀ kw ∈ wmSet m k w, kw ∈ m ∨ kw = (k, w) := by
  intro kw hkw
  unfold wmSet at hkw
  split at hkw
  · rcases List.mem_map.mp hkw with ⟨kw2, hkw2, hmap⟩
    by_cases hk : kw2.1 = k
    · right; rw [← hmap]; simp [hk]
    · left; rw [← hmap]; simpa [hk] using hkw2
  · rcases List.mem_append.mp hkw with h | h
    · exact Or.inl h
    · exact Or.inr (by simpa using h)

theorem wmSet_keys {m : WallMap} (k : WallKey) (w : Wall)
    (h : (m.map Prod.fst).Nodup) : ((wmSet m k w).map Prod.fst).Nodup := by
  unfold wmSet
  split
  · have heq : (m.map (fun kw => if kw.1 = k then (k, w) else kw)).map
        Prod.fst = m.map Prod.fst := by
      rw [List.map_map]
      apply List.map_congr_left
      intro kw _
      by_cases hk : kw.1 = k <;> simp [hk]
    rw [heq]; exact h
  · rename_i hany
    rw [List.map_append, List.nodup_append]
    refine ⟨h, List.nodup_singleton _, ?_⟩
    intro k2 hk2 hk3
    simp only [List.map_cons, List.map_nil, List.mem_singleton] at hk3
    subst hk3
    rcases List.mem_map.mp hk2 with ⟨kw, hkw, hfst⟩
    exact hany (List.any_eq_true.mpr ⟨kw, hkw, by simp [hfst]⟩)

theorem wmSet_good {m : WallMap} {k : WallKey} {w : Wall}
    (hgood : ∀ kw ∈ m, kw.1 = (kw.2.price, kw.2.side))
    (hk : k = (w.price, w.side)) :
    ∀ kw ∈ wmSet m k w, kw.1 = (kw.2.price, kw.2.side) := by
  intro kw hkw
  rcases wmSet_entries kw hkw with h | h
  · exact hgood kw h
  · rw [h]; exact hk

theorem wmFind_good {m : WallMap} {key : WallKey} {wall : Wall}
    (hgood : ∀ kw ∈ m, kw.1 = (kw.2.price, kw.2.side))
    (h : wmFind m key = some wall) : (wall.price, wall.side) = key := by
  unfold wmFind at h
  rcases Option.map_eq_some'.mp h with ⟨kw, hfind, hsnd⟩
  have hmem := List.mem_of_find?_eq_some hfind
  have hpred : kw.1 = key := by simpa using List.find?_some hfind
  have hg := hgood kw hmem
  rw [← hpred, hg, hsnd]

theorem find_key_filter (m : WallMap) (k : WallKey)
    (P : WallKey × Wall → Bool) (hP : ∀ kw, kw.1 = k → P kw = true) :
    List.find? (fun kw => decide (kw.1 = k)) (m.filter P) =
    List.find? (fun kw => decide (kw.1 = k)) m := by
  induction m with
  | nil => simp
  | cons kw rest ih =>
      by_cases hk : kw.1 = k
      · rw [List.filter_cons_of_pos (hP kw hk)]
        simp [hk]
      · by_cases hPkw : P kw = true
        · rw [List.filter_cons_of_pos hPkw]
          simpa [hk] using ih
        · rw [List.filter_cons_of_neg (by simpa using hPkw)]
          simpa [hk] using ih

theorem filter_key_of_find {m : WallMap} {k : WallKey} {wall : Wall}
    (hnd : (m.map Prod.fst).Nodup) (h : wmFind m k = some wall) :
    m.filter (fun kw => decide (kw.1 = k)) = [(k, wall)] := by
  induction m with
  | nil => simp [wmFind] at h
  | cons kw rest ih =>
      by_cases hk : kw.1 = k
      · have hsnd : kw.2 = wall := by
          unfold wmFind at h
          rw [List.find?_cons_of_pos _ (by simpa using hk)] at h
          simpa using h
        have hrest : rest.filter (fun kw => decide (kw.1 = k)) = [] := by
          rw [List.filter_eq_nil_iff]
          intro kw2 hkw2 hpred
          simp only [decide_eq_true_eq] at hpred
          have : kw.1 ∈ rest.map Prod.fst :=
            List.mem_map.mpr ⟨kw2, hkw2, by rw [hpred, hk]⟩
          simp only [List.map_cons, List.nodup_cons] at hnd
          exact hnd.1 this
        rw [List.filter_cons_of_pos (by simpa using hk), hrest]
        have : kw = (k, wall) := by
          rw [← hk, ← hsnd]
        rw [this]
      · have h2 : wmFind rest k = some wall := by
          unfold wmFind at h ⊢
          rwa [List.find?_cons_of_neg _ (by simpa using hk)] at h
        have hnd2 : (rest.map Prod.fst).Nodup := by
          simp only [List.map_cons, List.nodup_cons] at hnd
          exact hnd.2
        rw [List.filter_cons_of_neg (by simpa using hk)]
        exact ih hnd2 h2

theorem filter_of_map {α β : Type} (p : β → Bool) (f : α → β) (l : List α) :
    (l.map f).filter p = (l.filter (fun a => p (f a))).map f := by
  induction l with
  | nil => rfl
  | cons a l ih =>
      by_cases h : p (f a) = true <;> simp [h, ih]

theorem filter_swap {α : Type} (p q : α → Bool) (l : List α) :
    (l.filter p).filter q = (l.filter q).filter p := by
  induction l with
  | nil => rfl
  | cons a l ih =>
      by_cases hp : p a = true <;> by_cases hq : q a = true <;>
        simp [hp, hq, ih]

end WallMapLemmas

section WallProcessLemmas

/-- The wall stored back for a tracked level (wall_tracker.py lines
104-119), as a function of the previous wall. -/
def updatedWall (wall : Wall) (qty : ℚ) (mid : Option ℚ) (price now : ℚ) :
    Wall :=
  let w1 := if wall.current_qty * (6 / 5) < qty then
    { wall with replenish_count := wall.replenish_count + 1 } else wall
  let w2 := if testsWall mid price then
    { w1 with test_count := w1.test_count + 1 } else w1
  { w2 with
    current_qty := qty
    peak_qty := max w2.peak_qty qty
    last_seen := now }

theorem updatedWall_price_side (wall : Wall) (qty : ℚ) (mid : Option ℚ)
    (price now : ℚ) :
    (updatedWall wall qty mid price now).price = wall.price ∧
    (updatedWall wall qty mid price now).side = wall.side := by
  unfold updatedWall
  by_cases h1 : wall.current_qty * (6 / 5) < qty <;>
    by_cases h2 : testsWall mid price = true <;> simp [h1, h2]

theorem processLevel_skip (θ : ℚ) (side : WallSide) (mid : Option ℚ)
    (now : ℚ) (acc : WallMap × List WallEvent) (lv : PriceLevel)
    (hθ : ¬ θ ≤ lv.notional) :
    processLevel θ side mid now acc lv = acc := by
  unfold processLevel
  rw [if_neg hθ]

theorem processLevel_tracked (θ : ℚ) (side : WallSide) (mid : Option ℚ)
    (now : ℚ) (acc : WallMap × List WallEvent) (lv : PriceLevel) (wall : Wall)
    (hθ : θ ≤ lv.notional)
    (hw : wmFind acc.1 (lv.price, side) = some wall) :
    processLevel θ side mid now acc lv =
      (wmSet acc.1 (lv.price, side)
        (updatedWall wall lv.quantity mid lv.price now),
       acc.2 ++ (if wall.current_qty * (6 / 5) < lv.quantity then
         [WallEvent.replenish
           { wall with replenish_count := wall.replenish_count + 1 }]
         else [])) := by
  unfold processLevel updatedWall
  rw [if_pos hθ, hw]
  by_cases h1 : wall.current_qty * (6 / 5) < lv.quantity <;>
    by_cases h2 : testsWall mid lv.price = true <;> simp [h1, h2]

theorem processLevel_untracked (θ : ℚ) (side : WallSide) (mid : Option ℚ)
    (now : ℚ) (acc : WallMap × List WallEvent) (lv : PriceLevel)
    (hθ : θ ≤ lv.notional)
    (hw : wmFind acc.1 (lv.price, side) = none) :
    processLevel θ side mid now acc lv =
      (wmSet acc.1 (lv.price, side) (mkWall lv.price side lv.quantity now),
       acc.2 ++ [WallEvent.newWall (mkWall lv.price side lv.quantity now)]) := by
  unfold processLevel
  rw [if_pos hθ, hw]

theorem processLevel_frame (θ : ℚ) (side : WallSide) (mid : Option ℚ)
    (now : ℚ) (acc : WallMap × List WallEvent) (lv : PriceLevel) (k : WallKey)
    (hk : (lv.price, side) ≠ k)
    (hgood : ∀ kw ∈ acc.1, kw.1 = (kw.2.price, kw.2.side)) :
    wmFind (processLevel θ side mid now acc lv).1 k = wmFind acc.1 k ∧
    (∀ kw ∈ (processLevel θ side mid now acc lv).1,
      kw.1 = (kw.2.price, kw.2.side)) ∧
    ((acc.1.map Prod.fst).Nodup →
      (((processLevel θ side mid now acc lv).1).map Prod.fst).Nodup) ∧
    ∃ extra, (processLevel θ side mid now acc lv).2 = acc.2 ++ extra ∧
      ∀ e ∈ extra, e.key ≠ k := by
  by_cases hθ : θ ≤ lv.notional
  · cases hw : wmFind acc.1 (lv.price, side) with
    | some wall =>
        rw [processLevel_tracked θ side mid now acc lv wall hθ hw]
        have hkey := wmFind_good hgood hw
        have hup := updatedWall_price_side wall lv.quantity mid lv.price now
        have hkeq : (lv.price, side) =
            ((updatedWall wall lv.quantity mid lv.price now).price,
             (updatedWall wall lv.quantity mid lv.price now).side) := by
          rw [hup.1, hup.2, hkey]
        refine ⟨wmFind_wmSet_ne _ _ _ _ (Ne.symm hk), wmSet_good hgood hkeq,
          fun h => wmSet_keys _ _ h, ?_⟩
        by_cases h1 : wall.current_qty * (6 / 5) < lv.quantity
        · refine ⟨[WallEvent.replenish
            { wall with replenish_count := wall.replenish_count + 1 }],
            by rw [if_pos h1], ?_⟩
          intro e he
          rcases List.mem_singleton.mp he with rfl
          show (wall.price, wall.side) ≠ k
          rw [hkey]; exact hk
        · exact ⟨[], by rw [if_neg h1], by simp⟩
    | none =>
        rw [processLevel_untracked θ side mid now acc lv hθ hw]
        refine ⟨wmFind_wmSet_ne _ _ _ _ (Ne.symm hk), wmSet_good hgood rfl,
          fun h => wmSet_keys _ _ h,
          [WallEvent.newWall (mkWall lv.price side lv.quantity now)], rfl, ?_⟩
        intro e he
        rcases List.mem_singleton.mp he with rfl
        exact hk
  · rw [processLevel_skip θ side mid now acc lv hθ]
    exact ⟨rfl, hgood, id, [], (List.append_nil _).symm, by simp⟩

theorem processSide_frame (θ : ℚ) (side : WallSide) (mid : Option ℚ)
    (now : ℚ) (L : List PriceLevel) (k : WallKey) :
    ∀ acc : WallMap × List WallEvent,
      (∀ lv ∈ L, (lv.price, side) ≠ k) →
      (∀ kw ∈ acc.1, kw.1 = (kw.2.price, kw.2.side)) →
      wmFind (L.foldl (processLevel θ side mid now) acc).1 k =
        wmFind acc.1 k ∧
      (∀ kw ∈ (L.foldl (processLevel θ side mid now) acc).1,
        kw.1 = (kw.2.price, kw.2.side)) ∧
      ((acc.1.map Prod.fst).Nodup →
        (((L.foldl (processLevel θ side mid now) acc).1).map Prod.fst).Nodup) ∧
      ∃ extra, (L.foldl (processLevel θ side mid now) acc).2 = acc.2 ++ extra ∧
        ∀ e ∈ extra, e.key ≠ k := by
  induction L with
  | nil =>
      intro acc _ hgood
      exact ⟨rfl, hgood, id, [], (List.append_nil _).symm, by simp⟩
  | cons lv rest ih =>
      intro acc hL hgood
      obtain ⟨hfind1, hgood1, hnd1, extra1, hev1, hkey1⟩ :=
        processLevel_frame θ side mid now acc lv k (hL lv (by simp)) hgood
      obtain ⟨hfind2, hgood2, hnd2, extra2, hev2, hkey2⟩ :=
        ih (processLevel θ side mid now acc lv)
          (fun l hl => hL l (by simp [hl])) hgood1
      refine ⟨by rw [List.foldl_cons, hfind2, hfind1],
        by simpa using hgood2, fun h => hnd2 (hnd1 h),
        extra1 ++ extra2, ?_, ?_⟩
      · rw [List.foldl_cons, hev2, hev1, List.append_assoc]
      · intro e he
        rcases List.mem_append.mp he with h | h
        exacts [hkey1 e h, hkey2 e h]

theorem filter_singleton_split {L : List PriceLevel} {p : ℚ} {lv : PriceLevel}
    (h : L.filter (fun l => decide (l.price = p)) = [lv]) :
    ∃ L1 L2, L = L1 ++ lv :: L2 ∧ (∀ x ∈ L1, x.price ≠ p) ∧
      (∀ x ∈ L2, x.price ≠ p) := by
  induction L with
  | nil => simp at h
  | cons x xs ih =>
      by_cases hx : x.price = p
      · rw [List.filter_cons_of_pos (by simpa using hx)] at h
        have hx1 : x = lv := by injection h
        have hxs : xs.filter (fun l => decide (l.price = p)) = [] := by
          injection h
        refine ⟨[], xs, by simp [hx1], by simp, ?_⟩
        intro y hy
        have := List.filter_eq_nil_iff.mp hxs y hy
        simpa using this
      · rw [List.filter_cons_of_neg (by simpa using hx)] at h
        rcases ih h with ⟨L1, L2, hL, h1, h2⟩
        refine ⟨x :: L1, L2, by simp [hL], ?_, h2⟩
        intro y hy
        rcases List.mem_cons.mp hy with rfl | hy2
        · exact hx
        · exact h1 y hy2

theorem processSide_tracked (θ : ℚ) (L : List PriceLevel) (side : WallSide)
    (mid : Option ℚ) (now : ℚ) (walls : WallMap) (p q : ℚ) (wall : Wall)
    (hgood : ∀ kw ∈ walls, kw.1 = (kw.2.price, kw.2.side))
    (hnd : (walls.map Prod.fst).Nodup)
    (hfilter : L.filter (fun l => decide (l.price = p)) = [⟨p, q⟩])
    (hθ : θ ≤ p * q)
    (hw : wmFind walls (p, side) = some wall) :
    wmFind (processSide θ L side mid now walls).1 (p, side) =
      some (updatedWall wall q mid p now) ∧
    (∀ kw ∈ (processSide θ L side mid now walls).1,
      kw.1 = (kw.2.price, kw.2.side)) ∧
    ((processSide θ L side mid now walls).1.map Prod.fst).Nodup ∧
    (processSide θ L side mid now walls).2.filter
        (fun e => decide (e.key = (p, side))) =
      (if wall.current_qty * (6 / 5) < q then
        [WallEvent.replenish
          { wall with replenish_count := wall.replenish_count + 1 }]
        else []) := by
  obtain ⟨L1, L2, hL, h1, h2⟩ := filter_singleton_split hfilter
  subst hL
  unfold processSide
  rw [List.foldl_append, List.foldl_cons]
  obtain ⟨hfindA, hgoodA, hndA, extraA, hevA, hkeyA⟩ :=
    processSide_frame θ side mid now L1 (p, side) (walls, [])
      (fun l hl hcontra => (h1 l hl) (congrArg Prod.fst hcontra)) hgood
  have hwA : wmFind (L1.foldl (processLevel θ side mid now) (walls, [])).1
      (p, side) = some wall := by rw [hfindA, hw]
  have hkeyWall : (wall.price, wall.side) = (p, side) := wmFind_good hgood hw
  have hstep := processLevel_tracked θ side mid now
    (L1.foldl (processLevel θ side mid now) (walls, [])) ⟨p, q⟩ wall hθ hwA
  rw [hstep]
  have hup := updatedWall_price_side wall q mid p now
  have hkeq : ((p : ℚ), side) = ((updatedWall wall q mid p now).price,
      (updatedWall wall q mid p now).side) := by
    rw [hup.1, hup.2, hkeyWall]
  have hgoodB := wmSet_good hgoodA hkeq
  obtain ⟨hfindC, hgoodC, hndC, extraC, hevC, hkeyC⟩ :=
    processSide_frame θ side mid now L2 (p, side)
      (wmSet (L1.foldl (processLevel θ side mid now) (walls, [])).1 (p, side)
        (updatedWall wall q mid p now),
       (L1.foldl (processLevel θ side mid now) (walls, [])).2 ++
        (if wall.current_qty * (6 / 5) < q then
          [WallEvent.replenish
            { wall with replenish_count := wall.replenish_count + 1 }]
          else []))
      (fun l hl hcontra => (h2 l hl) (congrArg Prod.fst hcontra)) hgoodB
  refine ⟨by rw [hfindC, wmFind_wmSet_self], hgoodC,
    hndC (wmSet_keys _ _ (hndA hnd)), ?_⟩
  rw [hevC, hevA]
  simp only [List.nil_append, List.filter_append]
  have hA0 : extraA.filter (fun e => decide (e.key = (p, side))) = [] := by
    rw [List.filter_eq_nil_iff]
    intro e he hpred
    exact hkeyA e he (by simpa using hpred)
  have hC0 : extraC.filter (fun e => decide (e.key = (p, side))) = [] := by
    rw [List.filter_eq_nil_iff]
    intro e he hpred
    exact hkeyC e he (by simpa using hpred)
  rw [hA0, hC0]
  by_cases hrep : wall.current_qty * (6 / 5) < q
  · simp [WallEvent.key, hkeyWall, hrep]
  · simp [hrep]

theorem processSide_untracked (θ : ℚ) (L : List PriceLevel) (side : WallSide)
    (mid : Option ℚ) (now : ℚ) (walls : WallMap) (p q : ℚ)
    (hgood : ∀ kw ∈ walls, kw.1 = (kw.2.price, kw.2.side))
    (hnd : (walls.map Prod.fst).Nodup)
    (hfilter : L.filter (fun l => decide (l.price = p)) = [⟨p, q⟩])
    (hθ : θ ≤ p * q)
    (hw : wmFind walls (p, side) = none) :
    wmFind (processSide θ L side mid now walls).1 (p, side) =
      some (mkWall p side q now) ∧
    (∀ kw ∈ (processSide θ L side mid now walls).1,
      kw.1 = (kw.2.price, kw.2.side)) ∧
    ((processSide θ L side mid now walls).1.map Prod.fst).Nodup ∧
    (processSide θ L side mid now walls).2.filter
        (fun e => decide (e.key = (p, side))) =
      [WallEvent.newWall (mkWall p side q now)] := by
  obtain ⟨L1, L2, hL, h1, h2⟩ := filter_singleton_split hfilter
  subst hL
  unfold processSide
  rw [List.foldl_append, List.foldl_cons]
  obtain ⟨hfindA, hgoodA, hndA, extraA, hevA, hkeyA⟩ :=
    processSide_frame θ side mid now L1 (p, side) (walls, [])
      (fun l hl hcontra => (h1 l hl) (congrArg Prod.fst hcontra)) hgood
  have hwA : wmFind (L1.foldl (processLevel θ side mid now) (walls, [])).1
      (p, side) = none := by rw [hfindA, hw]
  have hstep := processLevel_untracked θ side mid now
    (L1.foldl (processLevel θ side mid now) (walls, [])) ⟨p, q⟩ hθ hwA
  rw [hstep]
  have hgoodB := @wmSet_good _ _ (mkWall p side q now) hgoodA rfl
  obtain ⟨hfindC, hgoodC, hndC, extraC, hevC, hkeyC⟩ :=
    processSide_frame θ side mid now L2 (p, side)
      (wmSet (L1.foldl (processLevel θ side mid now) (walls, [])).1 (p, side)
        (mkWall p side q now),
       (L1.foldl (processLevel θ side mid now) (walls, [])).2 ++
        [WallEvent.newWall (mkWall p side q now)])
      (fun l hl hcontra => (h2 l hl) (congrArg Prod.fst hcontra)) hgoodB
  refine ⟨by rw [hfindC, wmFind_wmSet_self], hgoodC,
    hndC (wmSet_keys _ _ (hndA hnd)), ?_⟩
  rw [hevC, hevA]
  simp only [List.nil_append, List.filter_append]
  have hA0 : extraA.filter (fun e => decide (e.key = (p, side))) = [] := by
    rw [List.filter_eq_nil_iff]
    intro e he hpred
    exact hkeyA e he (by simpa using hpred)
  have hC0 : extraC.filter (fun e => decide (e.key = (p, side))) = [] := by
    rw [List.filter_eq_nil_iff]
    intro e he hpred
    exact hkeyC e he (by simpa using hpred)
  rw [hA0, hC0]
  simp [WallEvent.key, mkWall]

theorem processSide_below (θ : ℚ) (L : List PriceLevel) (side : WallSide)
    (mid : Option ℚ) (now : ℚ) (walls : WallMap) (p q : ℚ)
    (hgood : ∀ kw ∈ walls, kw.1 = (kw.2.price, kw.2.side))
    (hnd : (walls.map Prod.fst).Nodup)
    (hfilter : L.filter (fun l => decide (l.price = p)) = [⟨p, q⟩])
    (hθ : p * q < θ) :
    wmFind (processSide θ L side mid now walls).1 (p, side) =
      wmFind walls (p, side) ∧
    (∀ kw ∈ (processSide θ L side mid now walls).1,
      kw.1 = (kw.2.price, kw.2.side)) ∧
    ((processSide θ L side mid now walls).1.map Prod.fst).Nodup ∧
    (processSide θ L side mid now walls).2.filter
        (fun e => decide (e.key = (p, side))) = [] := by
  obtain ⟨L1, L2, hL, h1, h2⟩ := filter_singleton_split hfilter
  subst hL
  unfold processSide
  rw [List.foldl_append, List.foldl_cons]
  obtain ⟨hfindA, hgoodA, hndA, extraA, hevA, hkeyA⟩ :=
    processSide_frame θ side mid now L1 (p, side) (walls, [])
      (fun l hl hcontra => (h1 l hl) (congrArg Prod.fst hcontra)) hgood
  have hstep := processLevel_skip θ side mid now
    (L1.foldl (processLevel θ side mid now) (walls, [])) ⟨p, q⟩
    (by simpa [PriceLevel.notional] using not_le_of_lt hθ)
  rw [hstep]
  obtain ⟨hfindC, hgoodC, hndC, extraC, hevC, hkeyC⟩ :=
    processSide_frame θ side mid now L2 (p, side)
      (L1.foldl (processLevel θ side mid now) (walls, []))
      (fun l hl hcontra => (h2 l hl) (congrArg Prod.fst hcontra)) hgoodA
  refine ⟨by rw [hfindC, hfindA], hgoodC, hndC (hndA hnd), ?_⟩
  rw [hevC, hevA]
  simp only [List.nil_append, List.filter_append]
  have hA0 : extraA.filter (fun e => decide (e.key = (p, side))) = [] := by
    rw [List.filter_eq_nil_iff]
    intro e he hpred
    exact hkeyA e he (by simpa using hpred)
  have hC0 : extraC.filter (fun e => decide (e.key = (p, side))) = [] := by
    rw [List.filter_eq_nil_iff]
    intro e he hpred
    exact hkeyC e he (by simpa using hpred)
  rw [hA0, hC0]
  rfl

theorem cleanup_present (ob : OrderBook) (walls : WallMap) (k : WallKey)
    (hin : (allPrices ob).any (fun k2 => decide (k2 = k)) = true)
    (hgood : ∀ kw ∈ walls, kw.1 = (kw.2.price, kw.2.side)) :
    wmFind (cleanupDeadWalls ob walls).1 k = wmFind walls k ∧
    (cleanupDeadWalls ob walls).2.filter (fun e => decide (e.key = k)) =
      [] := by
  constructor
  · show wmFind (walls.filter _) k = wmFind walls k
    unfold wmFind
    rw [find_key_filter walls k _ (fun kw hkw => by rw [hkw]; exact hin)]
  · show (List.map _ (walls.filter _)).filter _ = []
    rw [List.filter_eq_nil_iff]
    intro e he hkey
    rcases List.mem_map.mp he with ⟨kw, hkw, hmape⟩
    have hkwmem : kw ∈ walls := List.mem_of_mem_filter hkw
    have hdead : (allPrices ob).any (fun k2 => decide (k2 = kw.1)) = false := by
      have := List.of_mem_filter hkw
      simpa using this
    have hek : e.key = kw.1 := by
      rw [← hmape]
      show (kw.2.price, kw.2.side) = kw.1
      exact (hgood kw hkwmem).symm
    simp only [decide_eq_true_eq] at hkey
    rw [hek] at hkey
    rw [hkey, hin] at hdead
    exact Bool.noConfusion hdead

theorem cleanup_absent (ob : OrderBook) (walls : WallMap) (k : WallKey)
    (wall : Wall)
    (hout : (allPrices ob).any (fun k2 => decide (k2 = k)) = false)
    (hgood : ∀ kw ∈ walls, kw.1 = (kw.2.price, kw.2.side))
    (hnd : (walls.map Prod.fst).Nodup)
    (hw : wmFind walls k = some wall) :
    wmFind (cleanupDeadWalls ob walls).1 k = none ∧
    (cleanupDeadWalls ob walls).2.filter (fun e => decide (e.key = k)) =
      [WallEvent.removed wall
        (if 0 < wall.test_count then "consumed" else "cancelled")] := by
  constructor
  · show wmFind (walls.filter _) k = none
    unfold wmFind
    rw [Option.map_eq_none']
    rw [List.find?_eq_none]
    intro kw hkw hpred
    have hkept : (allPrices ob).any (fun k2 => decide (k2 = kw.1)) = true := by
      simpa using List.of_mem_filter hkw
    simp only [decide_eq_true_eq] at hpred
    rw [hpred, hout] at hkept
    exact Bool.noConfusion hkept
  · show ((walls.filter _).map _).filter _ = _
    rw [filter_of_map]
    have hcongr : (walls.filter
        (fun kw => !(allPrices ob).any (fun k2 => decide (k2 = kw.1)))).filter
          (fun kw => decide ((WallEvent.removed kw.2
            (if 0 < kw.2.test_count then "consumed" else "cancelled")).key =
              k)) =
        (walls.filter
          (fun kw => !(allPrices ob).any
            (fun k2 => decide (k2 = kw.1)))).filter
          (fun kw => decide (kw.1 = k)) :=
      List.filter_congr (fun kw hkw => by
        have hmem := List.mem_of_mem_filter hkw
        have := hgood kw hmem
        show decide ((kw.2.price, kw.2.side) = k) = decide (kw.1 = k)
        rw [← this])
    rw [hcongr, filter_swap, filter_key_of_find hnd hw]
    simp [hout]

end WallProcessLemmas

section WallClaims

theorem best_bid_pos {ob : OrderBook} (hb : posPrices ob.bids) {bb : ℚ}
    (h : ob.best_bid = some bb) : 0 < bb := by
  unfold OrderBook.best_bid at h
  rcases Option.map_eq_some'.mp h with ⟨lv, hlv, hp⟩
  rw [← hp]
  exact hb lv (List.mem_of_mem_head? hlv)

theorem best_ask_pos {ob : OrderBook} (ha : posPrices ob.asks) {ba : ℚ}
    (h : ob.best_ask = some ba) : 0 < ba := by
  unfold OrderBook.best_ask at h
  rcases Option.map_eq_some'.mp h with ⟨lv, hlv, hp⟩
  rw [← hp]
  exact ha lv (List.mem_of_mem_head? hlv)

theorem mid_price_pos {ob : OrderBook} (hb : posPrices ob.bids)
    (ha : posPrices ob.asks) {m : ℚ} (h : ob.mid_price = some m) : 0 < m := by
  unfold OrderBook.mid_price at h
  cases hbb : ob.best_bid with
  | none => rw [hbb] at h; exact absurd h (by simp)
  | some bb =>
      cases hba : ob.best_ask with
      | none => rw [hbb, hba] at h; exact absurd h (by simp)
      | some ba =>
          rw [hbb, hba] at h
          dsimp only at h
          by_cases hnz : bb ≠ 0 ∧ ba ≠ 0
          · rw [if_pos hnz] at h
            have hm := Option.some.inj h
            have h1 := best_bid_pos hb hbb
            have h2 := best_ask_pos ha hba
            rw [← hm]
            have : (0 : ℚ) < bb + ba := by linarith
            linarith [div_pos this (by norm_num : (0 : ℚ) < 2)]
          · rw [if_neg hnz] at h
            exact absurd h (by simp)

theorem testsWall_of_pos {ob : OrderBook} (hb : posPrices ob.bids)
    (ha : posPrices ob.asks) (p : ℚ) :
    testsWall ob.mid_price p =
      ob.mid_price.elim false (fun m => decide (|m - p| / p < 3 / 1000)) := by
  cases hm : ob.mid_price with
  | none => rfl
  | some m =>
      have hpos := mid_price_pos hb ha hm
      simp [testsWall, ne_of_gt hpos]

theorem updatedWall_fields (wall : Wall) (qty : ℚ) (mid : Option ℚ)
    (price now : ℚ) :
    (updatedWall wall qty mid price now).replenish_count =
      wall.replenish_count +
        (if wall.current_qty * (6 / 5) < qty then 1 else 0) ∧
    (updatedWall wall qty mid price now).test_count =
      wall.test_count + (if testsWall mid price = true then 1 else 0) ∧
    (updatedWall wall qty mid price now).current_qty = qty ∧
    (updatedWall wall qty mid price now).peak_qty = max wall.peak_qty qty ∧
    (updatedWall wall qty mid price now).last_seen = now := by
  unfold updatedWall
  by_cases h1 : wall.current_qty * (6 / 5) < qty <;>
    by_cases h2 : testsWall mid price = true <;> simp [h1, h2]

theorem processSide_other_frame (θ : ℚ) (L : List PriceLevel)
    (side other : WallSide) (mid : Option ℚ) (now : ℚ) (walls : WallMap)
    (hne : other ≠ side)
    (hgood : ∀ kw ∈ walls, kw.1 = (kw.2.price, kw.2.side)) (p : ℚ) :
    wmFind (processSide θ L other mid now walls).1 (p, side) =
      wmFind walls (p, side) ∧
    (∀ kw ∈ (processSide θ L other mid now walls).1,
      kw.1 = (kw.2.price, kw.2.side)) ∧
    ((walls.map Prod.fst).Nodup →
      ((processSide θ L other mid now walls).1.map Prod.fst).Nodup) ∧
    (processSide θ L other mid now walls).2.filter
      (fun e => decide (e.key = (p, side))) = [] := by
  obtain ⟨hfind, hgood2, hnd2, extra, hev, hkey⟩ :=
    processSide_frame θ other mid now L (p, side) (walls, [])
      (fun l _ hcontra => hne (congrArg Prod.snd hcontra)) hgood
  refine ⟨hfind, hgood2, hnd2, ?_⟩
  show (L.foldl (processLevel θ other mid now) (walls, [])).2.filter _ = []
  rw [hev]
  simp only [List.nil_append]
  rw [List.filter_eq_nil_iff]
  intro e he hpred
  exact hkey e he (by simpa using hpred)

theorem processSide_absent_frame (θ : ℚ) (L : List PriceLevel)
    (side : WallSide) (mid : Option ℚ) (now : ℚ) (walls : WallMap) (p : ℚ)
    (habs : ∀ l ∈ L, l.price ≠ p)
    (hgood : ∀ kw ∈ walls, kw.1 = (kw.2.price, kw.2.side)) :
    wmFind (processSide θ L side mid now walls).1 (p, side) =
      wmFind walls (p, side) ∧
    (∀ kw ∈ (processSide θ L side mid now walls).1,
      kw.1 = (kw.2.price, kw.2.side)) ∧
    ((walls.map Prod.fst).Nodup →
      ((processSide θ L side mid now walls).1.map Prod.fst).Nodup) ∧
    (processSide θ L side mid now walls).2.filter
      (fun e => decide (e.key = (p, side))) = [] := by
  obtain ⟨hfind, hgood2, hnd2, extra, hev, hkey⟩ :=
    processSide_frame θ side mid now L (p, side) (walls, [])
      (fun l hl hcontra => habs l hl (congrArg Prod.fst hcontra)) hgood
  refine ⟨hfind, hgood2, hnd2, ?_⟩
  show (L.foldl (processLevel θ side mid now) (walls, [])).2.filter _ = []
  rw [hev]
  simp only [List.nil_append]
  rw [List.filter_eq_nil_iff]
  intro e he hpred
  exact hkey e he (by simpa using hpred)

theorem allPrices_any_true {ob : OrderBook} {p : ℚ} {side : WallSide}
    (h : ∃ lv ∈ sideOf ob side, lv.price = p) :
    (allPrices ob).any (fun k2 => decide (k2 = (p, side))) = true := by
  rcases h with ⟨lv, hlv, hp⟩
  apply List.any_eq_true.mpr
  refine ⟨(p, side), ?_, by simp⟩
  unfold allPrices
  cases side with
  | bid =>
      exact List.mem_append_left _
        (List.mem_map.mpr ⟨lv, by simpa [sideOf] using hlv, by rw [hp]⟩)
  | ask =>
      exact List.mem_append_right _
        (List.mem_map.mpr ⟨lv, by simpa [sideOf] using hlv, by rw [hp]⟩)

theorem allPrices_any_false {ob : OrderBook} {p : ℚ} {side : WallSide}
    (h : ∀ lv ∈ sideOf ob side, lv.price ≠ p) :
    (allPrices ob).any (fun k2 => decide (k2 = (p, side))) = false := by
  apply List.any_eq_false.mpr
  intro k2 hk2 hpred
  simp only [decide_eq_true_eq] at hpred
  subst hpred
  unfold allPrices at hk2
  rcases List.mem_append.mp hk2 with h2 | h2 <;>
    rcases List.mem_map.mp h2 with ⟨lv, hlv, hpair⟩
  · have hside : side = WallSide.bid := (Prod.mk.injEq .. ▸ hpair).symm.1 ▸ rfl
    cases side with
    | bid =>
        have hprice : lv.price = p := by
          have := congrArg Prod.fst hpair
          simpa using this
        exact h lv (by simpa [sideOf] using hlv) hprice
    | ask =>
        have := congrArg Prod.snd hpair
        simp at this
  · cases side with
    | bid =>
        have := congrArg Prod.snd hpair
        simp at this
    | ask =>
        have hprice : lv.price = p := by
          have := congrArg Prod.fst hpair
          simpa using this
        exact h lv (by simpa [sideOf] using hlv) hprice

/-- Claim C6: for a tracked wall key (p, side) whose price appears once on
its side with quantity q at or above the notional threshold,
`WallTracker.update` emits WALL_REPLENISH (exactly once, and no other event
for that key) exactly when q exceeds the tracked current quantity by more
than 20 percent; the stored wall afterwards has `replenish_count` bumped
accordingly, `test_count` bumped exactly when the mid price exists and is
within relative distance 0.003 of the wall, `current_qty = q`,
`peak_qty = max old_peak q`, and `last_seen` refreshed to the call time. -/
theorem C6_tracked_wall_maintenance (θ : ℚ) (walls : WallMap)
    (ob : OrderBook) (now p q : ℚ) (side : WallSide) (wall : Wall)
    (hwf : wmWF walls)
    (hw : wmFind walls (p, side) = some wall)
    (hfilter : (sideOf ob side).filter (fun l => decide (l.price = p)) =
      [⟨p, q⟩])
    (hθ : θ ≤ p * q)
    (hb : posPrices ob.bids) (ha : posPrices ob.asks) :
    ((wtUpdate θ walls ob now).2.filter
        (fun e => decide (e.key = (p, side))) =
      (if wall.current_qty * (6 / 5) < q then
        [WallEvent.replenish
          { wall with replenish_count := wall.replenish_count + 1 }]
        else [])) ∧
    wmFind (wtUpdate θ walls ob now).1 (p, side) =
      some (updatedWall wall q ob.mid_price p now) ∧
    (updatedWall wall q ob.mid_price p now).replenish_count =
      wall.replenish_count +
        (if wall.current_qty * (6 / 5) < q then 1 else 0) ∧
    (updatedWall wall q ob.mid_price p now).test_count =
      wall.test_count +
        (if ob.mid_price.elim false
            (fun m => decide (|m - p| / p < 3 / 1000)) = true then 1
         else 0) ∧
    (updatedWall wall q ob.mid_price p now).current_qty = q ∧
    (updatedWall wall q ob.mid_price p now).peak_qty = max wall.peak_qty q ∧
    (updatedWall wall q ob.mid_price p now).last_seen = now := by
  have hgood := hwf.1
  have hnd := hwf.2
  obtain ⟨hrepl, htest, hqty, hpeak, hseen⟩ :=
    updatedWall_fields wall q ob.mid_price p now
  rw [testsWall_of_pos hb ha] at htest
  cases side with
  | bid =>
      have hmem : (⟨p, q⟩ : PriceLevel) ∈ sideOf ob WallSide.bid :=
        List.mem_of_mem_filter
          (show (⟨p, q⟩ : PriceLevel) ∈ _ by
            rw [hfilter]; exact List.mem_singleton_self _)
      obtain ⟨f1, g1, n1, e1⟩ := processSide_tracked θ ob.bids WallSide.bid
        ob.mid_price now walls p q wall hgood hnd
        (by simpa [sideOf] using hfilter) hθ hw
      obtain ⟨f2, g2, n2, e2⟩ := processSide_other_frame θ ob.asks
        WallSide.bid WallSide.ask ob.mid_price now
        (processSide θ ob.bids WallSide.bid ob.mid_price now walls).1
        (by simp) g1 p
      have hany := allPrices_any_true ⟨⟨p, q⟩, hmem, rfl⟩
      obtain ⟨c1, c2⟩ := cleanup_present ob
        (processSide θ ob.asks WallSide.ask ob.mid_price now
          (processSide θ ob.bids WallSide.bid ob.mid_price now walls).1).1
        ((p : ℚ), WallSide.bid) hany g2
      refine ⟨?_, ?_, hrepl, htest, hqty, hpeak, hseen⟩
      · simp only [wtUpdate]
        rw [List.filter_append, List.filter_append, e1, e2, c2]
        simp
      · simp only [wtUpdate]
        rw [c1, f2, f1]
  | ask =>
      have hmem : (⟨p, q⟩ : PriceLevel) ∈ sideOf ob WallSide.ask :=
        List.mem_of_mem_filter
          (show (⟨p, q⟩ : PriceLevel) ∈ _ by
            rw [hfilter]; exact List.mem_singleton_self _)
      obtain ⟨f1, g1, n1, e1⟩ := processSide_other_frame θ ob.bids
        WallSide.ask WallSide.bid ob.mid_price now walls (by simp) hgood p
      have hw1 : wmFind (processSide θ ob.bids WallSide.bid ob.mid_price now
          walls).1 ((p : ℚ), WallSide.ask) = some wall := by
        rw [f1]; exact hw
      obtain ⟨f2, g2, n2, e2⟩ := processSide_tracked θ ob.asks WallSide.ask
        ob.mid_price now
        (processSide θ ob.bids WallSide.bid ob.mid_price now walls).1 p q wall
        g1 (n1 hnd) (by simpa [sideOf] using hfilter) hθ hw1
      have hany := allPrices_any_true ⟨⟨p, q⟩, hmem, rfl⟩
      obtain ⟨c1, c2⟩ := cleanup_present ob
        (processSide θ ob.asks WallSide.ask ob.mid_price now
          (processSide θ ob.bids WallSide.bid ob.mid_price now walls).1).1
        ((p : ℚ), WallSide.ask) hany g2
      refine ⟨?_, ?_, hrepl, htest, hqty, hpeak, hseen⟩
      · simp only [wtUpdate]
        rw [List.filter_append, List.filter_append, e1, e2, c2]
        simp
      · simp only [wtUpdate]
        rw [c1, f2]

/-- Claim C7: on a call where the key (p, side) is untracked and its price
appears once on its side with notional at or above the threshold, exactly
one NEW_WALL event for that key is emitted and the key becomes tracked;
and on a call where the key is tracked but its price is absent from its
side, exactly one WALL_REMOVED event for that key is emitted, with reason
consumed iff its test count is positive, and the key is dropped from the
wall map on that same call. -/
theorem C7_wall_lifecycle_events (θ : ℚ) (walls : WallMap) (ob : OrderBook)
    (now p q : ℚ) (side : WallSide) (wall : Wall) (hwf : wmWF walls) :
    (wmFind walls (p, side) = none →
      (sideOf ob side).filter (fun l => decide (l.price = p)) = [⟨p, q⟩] →
      θ ≤ p * q →
      (wtUpdate θ walls ob now).2.filter
          (fun e => decide (e.key = (p, side))) =
        [WallEvent.newWall (mkWall p side q now)] ∧
      wmFind (wtUpdate θ walls ob now).1 (p, side) =
        some (mkWall p side q now)) ∧
    (wmFind walls (p, side) = some wall →
      (∀ l ∈ sideOf ob side, l.price ≠ p) →
      (wtUpdate θ walls ob now).2.filter
          (fun e => decide (e.key = (p, side))) =
        [WallEvent.removed wall
          (if 0 < wall.test_count then "consumed" else "cancelled")] ∧
      wmFind (wtUpdate θ walls ob now).1 (p, side) = none) := by
  have hgood := hwf.1
  have hnd := hwf.2
  constructor
  · intro hw hfilter hθ
    cases side with
    | bid =>
        have hmem : (⟨p, q⟩ : PriceLevel) ∈ sideOf ob WallSide.bid :=
          List.mem_of_mem_filter
            (show (⟨p, q⟩ : PriceLevel) ∈ _ by
              rw [hfilter]; exact List.mem_singleton_self _)
        obtain ⟨f1, g1, n1, e1⟩ := processSide_untracked θ ob.bids
          WallSide.bid ob.mid_price now walls p q hgood hnd
          (by simpa [sideOf] using hfilter) hθ hw
        obtain ⟨f2, g2, n2, e2⟩ := processSide_other_frame θ ob.asks
          WallSide.bid WallSide.ask ob.mid_price now
          (processSide θ ob.bids WallSide.bid ob.mid_price now walls).1
          (by simp) g1 p
        have hany := allPrices_any_true ⟨⟨p, q⟩, hmem, rfl⟩
        obtain ⟨c1, c2⟩ := cleanup_present ob
          (processSide θ ob.asks WallSide.ask ob.mid_price now
            (processSide θ ob.bids WallSide.bid ob.mid_price now walls).1).1
          ((p : ℚ), WallSide.bid) hany g2
        constructor
        · simp only [wtUpdate]
          rw [List.filter_append, List.filter_append, e1, e2, c2]
          simp
        · simp only [wtUpdate]
          rw [c1, f2, f1]
    | ask =>
        have hmem : (⟨p, q⟩ : PriceLevel) ∈ sideOf ob WallSide.ask :=
          List.mem_of_mem_filter
            (show (⟨p, q⟩ : PriceLevel) ∈ _ by
              rw [hfilter]; exact List.mem_singleton_self _)
        obtain ⟨f1, g1, n1, e1⟩ := processSide_other_frame θ ob.bids
          WallSide.ask WallSide.bid ob.mid_price now walls (by simp) hgood p
        have hw1 : wmFind (processSide θ ob.bids WallSide.bid ob.mid_price
            now walls).1 ((p : ℚ), WallSide.ask) = none := by
          rw [f1]; exact hw
        obtain ⟨f2, g2, n2, e2⟩ := processSide_untracked θ ob.asks
          WallSide.ask ob.mid_price now
          (processSide θ ob.bids WallSide.bid ob.mid_price now walls).1 p q
          g1 (n1 hnd) (by simpa [sideOf] using hfilter) hθ hw1
        have hany := allPrices_any_true ⟨⟨p, q⟩, hmem, rfl⟩
        obtain ⟨c1, c2⟩ := cleanup_present ob
          (processSide θ ob.asks WallSide.ask ob.mid_price now
            (processSide θ ob.bids WallSide.bid ob.mid_price now walls).1).1
          ((p : ℚ), WallSide.ask) hany g2
        constructor
        · simp only [wtUpdate]
          rw [List.filter_append, List.filter_append, e1, e2, c2]
          simp
        · simp only [wtUpdate]
          rw [c1, f2]
  · intro hw habs
    cases side with
    | bid =>
        obtain ⟨f1, g1, n1, e1⟩ := processSide_absent_frame θ ob.bids
          WallSide.bid ob.mid_price now walls p
          (by simpa [sideOf] using habs) hgood
        obtain ⟨f2, g2, n2, e2⟩ := processSide_other_frame θ ob.asks
          WallSide.bid WallSide.ask ob.mid_price now
          (processSide θ ob.bids WallSide.bid ob.mid_price now walls).1
          (by simp) g1 p
        have hw2 : wmFind (processSide θ ob.asks WallSide.ask ob.mid_price
            now (processSide θ ob.bids WallSide.bid ob.mid_price now
              walls).1).1 ((p : ℚ), WallSide.bid) = some wall := by
          rw [f2, f1]; exact hw
        have hnone := allPrices_any_false habs
        obtain ⟨c1, c2⟩ := cleanup_absent ob
          (processSide θ ob.asks WallSide.ask ob.mid_price now
            (processSide θ ob.bids WallSide.bid ob.mid_price now walls).1).1
          ((p : ℚ), WallSide.bid) wall hnone g2 (n2 (n1 hnd)) hw2
        constructor
        · simp only [wtUpdate]
          rw [List.filter_append, List.filter_append, e1, e2, c2]
          simp
        · simp only [wtUpdate]
          rw [c1]
    | ask =>
        obtain ⟨f1, g1, n1, e1⟩ := processSide_other_frame θ ob.bids
          WallSide.ask WallSide.bid ob.mid_price now walls (by simp) hgood p
        obtain ⟨f2, g2, n2, e2⟩ := processSide_absent_frame θ ob.asks
          WallSide.ask ob.mid_price now
          (processSide θ ob.bids WallSide.bid ob.mid_price now walls).1 p
          (by simpa [sideOf] using habs) g1
        have hw2 : wmFind (processSide θ ob.asks WallSide.ask ob.mid_price
            now (processSide θ ob.bids WallSide.bid ob.mid_price now
              walls).1).1 ((p : ℚ), WallSide.ask) = some wall := by
          rw [f2, f1]; exact hw
        have hnone := allPrices_any_false habs
        obtain ⟨c1, c2⟩ := cleanup_absent ob
          (processSide θ ob.asks WallSide.ask ob.mid_price now
            (processSide θ ob.bids WallSide.bid ob.mid_price now walls).1).1
          ((p : ℚ), WallSide.ask) wall hnone g2 (n2 (n1 hnd)) hw2
        constructor
        · simp only [wtUpdate]
          rw [List.filter_append, List.filter_append, e1, e2, c2]
          simp
        · simp only [wtUpdate]
          rw [c1]

/-- Claim C10: a tracked wall whose price is still present on its side but
whose notional has fallen below the threshold produces no event for that
key, stays in the wall map, and keeps all of its fields unchanged; removal
depends only on the price disappearing from the book. -/
theorem C10_below_threshold_wall_untouched (θ : ℚ) (walls : WallMap)
    (ob : OrderBook) (now p q : ℚ) (side : WallSide) (wall : Wall)
    (hwf : wmWF walls)
    (hw : wmFind walls (p, side) = some wall)
    (hfilter : (sideOf ob side).filter (fun l => decide (l.price = p)) =
      [⟨p, q⟩])
    (hθ : p * q < θ) :
    (wtUpdate θ walls ob now).2.filter
      (fun e => decide (e.key = (p, side))) = [] ∧
    wmFind (wtUpdate θ walls ob now).1 (p, side) = some wall := by
  have hgood := hwf.1
  have hnd := hwf.2
  cases side with
  | bid =>
      have hmem : (⟨p, q⟩ : PriceLevel) ∈ sideOf ob WallSide.bid :=
        List.mem_of_mem_filter
          (show (⟨p, q⟩ : PriceLevel) ∈ _ by
            rw [hfilter]; exact List.mem_singleton_self _)
      obtain ⟨f1, g1, n1, e1⟩ := processSide_below θ ob.bids WallSide.bid
        ob.mid_price now walls p q hgood hnd
        (by simpa [sideOf] using hfilter) hθ
      obtain ⟨f2, g2, n2, e2⟩ := processSide_other_frame θ ob.asks
        WallSide.bid WallSide.ask ob.mid_price now
        (processSide θ ob.bids WallSide.bid ob.mid_price now walls).1
        (by simp) g1 p
      have hany := allPrices_any_true ⟨⟨p, q⟩, hmem, rfl⟩
      obtain ⟨c1, c2⟩ := cleanup_present ob
        (processSide θ ob.asks WallSide.ask ob.mid_price now
          (processSide θ ob.bids WallSide.bid ob.mid_price now walls).1).1
        ((p : ℚ), WallSide.bid) hany g2
      constructor
      · simp only [wtUpdate]
        rw [List.filter_append, List.filter_append, e1, e2, c2]
        simp
      · simp only [wtUpdate]
        rw [c1, f2, f1]
        exact hw
  | ask =>
      have hmem : (⟨p, q⟩ : PriceLevel) ∈ sideOf ob WallSide.ask :=
        List.mem_of_mem_filter
          (show (⟨p, q⟩ : PriceLevel) ∈ _ by
            rw [hfilter]; exact List.mem_singleton_self _)
      obtain ⟨f1, g1, n1, e1⟩ := processSide_other_frame θ ob.bids
        WallSide.ask WallSide.bid ob.mid_price now walls (by simp) hgood p
      obtain ⟨f2, g2, n2, e2⟩ := processSide_below θ ob.asks WallSide.ask
        ob.mid_price now
        (processSide θ ob.bids WallSide.bid ob.mid_price now walls).1 p q
        g1 (n1 hnd) (by simpa [sideOf] using hfilter) hθ
      have hany := allPrices_any_true ⟨⟨p, q⟩, hmem, rfl⟩
      obtain ⟨c1, c2⟩ := cleanup_present ob
        (processSide θ ob.asks WallSide.ask ob.mid_price now
          (processSide θ ob.bids WallSide.bid ob.mid_price now walls).1).1
        ((p : ℚ), WallSide.ask) hany g2
      constructor
      · simp only [wtUpdate]
        rw [List.filter_append, List.filter_append, e1, e2, c2]
        simp
      · simp only [wtUpdate]
        rw [c1, f2, f1]
        exact hw

/-- A tracked sample wall: price 100 on the bid side, quantity 3000. -/
def wallSample : Wall :=
  { price := 100
    side := WallSide.bid
    initial_qty := 3000
    current_qty := 3000
    first_seen := 0
    last_seen := 0
    replenish_count := 0
    test_count := 0
    peak_qty := 3000 }

/-- A wall map tracking only `wallSample`. -/
def wallsSample : WallMap := [((100, WallSide.bid), wallSample)]

/-- A book where the sample wall level grew to quantity 4000. -/
def obWallSample : OrderBook :=
  { symbol := "BTCUSDT", bids := [⟨100, 4000⟩], asks := [⟨102, 1⟩] }

/-- A book from which the price of the sample wall has disappeared. -/
def obGoneSample : OrderBook :=
  { symbol := "BTCUSDT", bids := [⟨99, 1⟩], asks := [⟨102, 1⟩] }

/-- A book where the sample wall level shrank to quantity 1 (below the
notional threshold). -/
def obSmallSample : OrderBook :=
  { symbol := "BTCUSDT", bids := [⟨100, 1⟩], asks := [⟨102, 1⟩] }

/-- Witness for C6 at the concrete replenish scenario of spec scenario 4:
threshold 200000, tracked qty 3000, new qty 4000. -/
theorem C6_witness :
    ((wtUpdate 200000 wallsSample obWallSample 1).2.filter
        (fun e => decide (e.key = ((100 : ℚ), WallSide.bid))) =
      (if wallSample.current_qty * (6 / 5) < 4000 then
        [WallEvent.replenish
          { wallSample with
            replenish_count := wallSample.replenish_count + 1 }]
        else [])) ∧
    wmFind (wtUpdate 200000 wallsSample obWallSample 1).1
        ((100 : ℚ), WallSide.bid) =
      some (updatedWall wallSample 4000 obWallSample.mid_price 100 1) ∧
    (updatedWall wallSample 4000 obWallSample.mid_price 100 1).replenish_count =
      wallSample.replenish_count +
        (if wallSample.current_qty * (6 / 5) < 4000 then 1 else 0) ∧
    (updatedWall wallSample 4000 obWallSample.mid_price 100 1).test_count =
      wallSample.test_count +
        (if obWallSample.mid_price.elim false
            (fun m => decide (|m - 100| / 100 < 3 / 1000)) = true then 1
         else 0) ∧
    (updatedWall wallSample 4000 obWallSample.mid_price 100 1).current_qty =
      4000 ∧
    (updatedWall wallSample 4000 obWallSample.mid_price 100 1).peak_qty =
      max wallSample.peak_qty 4000 ∧
    (updatedWall wallSample 4000 obWallSample.mid_price 100 1).last_seen =
      1 :=
  C6_tracked_wall_maintenance 200000 wallsSample obWallSample 1 100 4000
    WallSide.bid wallSample (by unfold wmWF; decide) (by decide) (by decide)
    (by norm_num) (by unfold posPrices; decide) (by unfold posPrices; decide)

/-- Witness for C7: a fresh tracker sees the wall level and emits exactly
one NEW_WALL; a tracker whose wall price disappeared emits exactly one
WALL_REMOVED with reason cancelled and drops the key. -/
theorem C7_witness :
    ((wtUpdate 200000 [] obWallSample 1).2.filter
        (fun e => decide (e.key = ((100 : ℚ), WallSide.bid))) =
      [WallEvent.newWall (mkWall 100 WallSide.bid 4000 1)] ∧
     wmFind (wtUpdate 200000 [] obWallSample 1).1
        ((100 : ℚ), WallSide.bid) = some (mkWall 100 WallSide.bid 4000 1)) ∧
    ((wtUpdate 200000 wallsSample obGoneSample 2).2.filter
        (fun e => decide (e.key = ((100 : ℚ), WallSide.bid))) =
      [WallEvent.removed wallSample
        (if 0 < wallSample.test_count then "consumed" else "cancelled")] ∧
     wmFind (wtUpdate 200000 wallsSample obGoneSample 2).1
        ((100 : ℚ), WallSide.bid) = none) := by
  constructor
  · exact (C7_wall_lifecycle_events 200000 [] obWallSample 1 100 4000
      WallSide.bid wallSample (by unfold wmWF; decide)).1 (by decide)
      (by decide) (by norm_num)
  · exact (C7_wall_lifecycle_events 200000 wallsSample obGoneSample 2 100 0
      WallSide.bid wallSample (by unfold wmWF; decide)).2 (by decide)
      (by decide)

/-- Witness for C10: the tracked wall level shrank below the threshold but
is still present; no event for it, and its entry is unchanged. -/
theorem C10_witness :
    (wtUpdate 200000 wallsSample obSmallSample 3).2.filter
      (fun e => decide (e.key = ((100 : ℚ), WallSide.bid))) = [] ∧
    wmFind (wtUpdate 200000 wallsSample obSmallSample 3).1
      ((100 : ℚ), WallSide.bid) = some wallSample :=
  C10_below_threshold_wall_untouched 200000 wallsSample obSmallSample 3 100 1
    WallSide.bid wallSample (by unfold wmWF; decide) (by decide) (by decide)
    (by norm_num)

end WallClaims
